import Mathlib

/-!
Verification of the fish-fry-finder core logic: a shallow embedding of the
geo primitives (src/lib/geo.ts), the event filter-and-sort engine
(EventListWithFilters), the order form pricing/availability logic
(OrderForm), and the admin order-status/notification flow.

Modelling conventions:
* JavaScript strings are modelled as Lean `String` / `List Char`; the
  Unicode-aware pieces of `toLowerCase`, `trim` and the regex classes
  `\w`, `\s` are modelled at the ASCII level (all inputs of interest are
  ASCII; non-ASCII characters are non-word characters either way).
* JavaScript numbers are modelled as `ℚ` where only finite values occur,
  with the `Infinity` sentinel of the distance map modelled explicitly by
  an inductive `JsNum`.  Trigonometric code (`haversineMiles`) is modelled
  over `ℝ`.
* `Array.prototype.sort` is, per the ECMAScript specification, a stable
  sort whose comparator result is coerced with NaN ↦ +0; it is modelled by
  `List.mergeSort` with the induced boolean "comparator ≤ 0" relation.
-/

namespace FishFry

/-- Model of the ECMAScript regex word-character class `\w` = [A-Za-z0-9_]. -/
def wordChar (c : Char) : Bool :=
  decide ((97 ≤ c.toNat ∧ c.toNat ≤ 122) ∨ (65 ≤ c.toNat ∧ c.toNat ≤ 90) ∨
    (48 ≤ c.toNat ∧ c.toNat ≤ 57) ∨ c = '_')

/-- Model of the ECMAScript whitespace class `\s` (ASCII core: space, tab,
line feed, carriage return, vertical tab, form feed). -/
def wsChar (c : Char) : Bool :=
  decide (c = ' ' ∨ c = '\t' ∨ c = '\n' ∨ c = '\r' ∨ c = '\x0b' ∨ c = '\x0c')

/-- Model of `String.prototype.trim`: strip whitespace at both ends. -/
def jsTrim (cs : List Char) : List Char :=
  ((cs.dropWhile wsChar).reverse.dropWhile wsChar).reverse

/-- Model of `s.replace(/\s+/g, " ")`: collapse each maximal whitespace run
to a single space. -/
def collapseWs : List Char → List Char
  | [] => []
  | c :: cs =>
    if wsChar c then ' ' :: collapseWs (cs.dropWhile wsChar)
    else c :: collapseWs cs
termination_by cs => cs.length
decreasing_by
  · have := (List.dropWhile_sublist (l := cs) wsChar).length_le
    simp
    omega
  · simp

/-- Match attempt for the regex `\b<abbr>\.?\b` at the current position of
the scan, where `abbr = a :: ab` consists of word characters.  `prev` says
whether the character preceding the position is a word character (so the
leading `\b` holds iff `prev = false`).  Returns `some j` when the regex
matches `j + 1` characters here: the greedy optional `\.` is kept only when
the trailing `\b` still holds after it (i.e. a word character follows the
dot); otherwise the engine backtracks and the trailing `\b` is checked
right after the abbreviation (it holds iff the next character is absent or
a non-word character, the last abbreviation character being a word
character). -/
def abbrMatchLen (a : Char) (ab : List Char) (prev : Bool) (cs : List Char) : Option Nat :=
  if prev then none
  else if (a :: ab).isPrefixOf cs then
    match cs.drop (ab.length + 1) with
    | [] => some ab.length
    | x :: rest2 =>
      if x = '.' then
        match rest2 with
        | [] => some ab.length
        | d :: _ => if wordChar d then some (ab.length + 1) else some ab.length
      else if wordChar x then none
      else some ab.length
  else none

/-- Model of `s.replace(/\b<abbr>\.?\b/g, rep)`: scan left to right; at a
match of `j + 1` characters emit `rep` and resume after the match (the next
leading-`\b` test sees the last matched character: the abbreviation's last
letter, a word character, unless the dot was consumed); otherwise emit the
current character and advance by one. -/
def replaceAbbrPass (a : Char) (ab rep : List Char) : Bool → List Char → List Char
  | _, [] => []
  | prev, c :: cs =>
    match abbrMatchLen a ab prev (c :: cs) with
    | some j => rep ++ replaceAbbrPass a ab rep (j == ab.length) (cs.drop j)
    | none => c :: replaceAbbrPass a ab rep (wordChar c) cs
termination_by _ cs => cs.length
decreasing_by
  · simp
    omega
  · simp

/-- The seven whole-word abbreviation expansions of `normalizeCityName`, in
source order: st→saint, ft→fort, mt→mount, n→north, s→south, e→east,
w→west. -/
def abbrevTable : List ((Char × List Char) × List Char) :=
  [(('s', ['t']), "saint".toList),
   (('f', ['t']), "fort".toList),
   (('m', ['t']), "mount".toList),
   (('n', ([] : List Char)), "north".toList),
   (('s', ([] : List Char)), "south".toList),
   (('e', ([] : List Char)), "east".toList),
   (('w', ([] : List Char)), "west".toList)]

/-- Model of `normalizeCityName` (src/lib/geo.ts): empty input yields the
empty string; otherwise trim, lowercase, apply the seven word-boundary
abbreviation replacements in order, collapse whitespace runs, trim. -/
def normalizeCityName (name : String) : String :=
  if name = "" then ""
  else
    let s0 := (jsTrim name.toList).map Char.toLower
    let s1 := abbrevTable.foldl (fun s p => replaceAbbrPass p.1.1 p.1.2 p.2 false s) s0
    String.mk (jsTrim (collapseWs s1))

/-- Model of `hay.includes(sub)` for JavaScript strings: `sub` occurs as a
contiguous substring of `hay`. -/
def strIncludes (hay sub : List Char) : Bool :=
  (List.range (hay.length + 1)).any (fun i => sub.isPrefixOf (hay.drop i))

/-- Model of `citiesMatch` (src/lib/geo.ts): normalize both names, return
false if either normalizes to the empty string, else test bidirectional
substring containment. -/
def citiesMatch (a b : String) : Bool :=
  let na := normalizeCityName a
  let nb := normalizeCityName b
  if na = "" ∨ nb = "" then false
  else strIncludes na.toList nb.toList || strIncludes nb.toList na.toList

/-- A JavaScript number as it occurs in the distance map of
`EventListWithFilters`: either a finite value or the `Infinity` sentinel
stored for events without coordinates. -/
inductive JsNum where
  | fin (q : ℚ)
  | inf
deriving DecidableEq

/-- A latitude/longitude pair (finite JavaScript numbers). -/
structure Coords where
  lat : ℚ
  lng : ℚ
deriving DecidableEq

/-- The embedded location of an event row, with optional stored
coordinates (`lat`/`lng` are nullable columns). -/
structure Location where
  name : Option String
  city : Option String
  state : Option String
  zip : Option String
  lat : Option ℚ
  lng : Option ℚ
deriving DecidableEq

/-- The `EventWithLocation` row type of `EventListWithFilters`. -/
structure EventWithLocation where
  id : String
  event_date : String
  start_time : Option String
  end_time : Option String
  dine_in : Bool
  pickup : Bool
  location : Option Location
deriving DecidableEq

/-- Model of `getLocationCoords`: the event's stored coordinates, or
`none` when the location is null or either coordinate is null. -/
def getLocationCoords (e : EventWithLocation) : Option Coords :=
  match e.location with
  | none => none
  | some loc =>
    match loc.lat, loc.lng with
    | some la, some ln => some ⟨la, ln⟩
    | _, _ => none

/-- The distance recorded for one event in the `distMap` loop: the
haversine value for its stored coordinates, else the `Infinity` sentinel.
The haversine float function itself is a parameter `hv` of the engine
model. -/
def eventDist (hv : ℚ → ℚ → ℚ → ℚ → ℚ) (origin : Coords) (e : EventWithLocation) : JsNum :=
  match getLocationCoords e with
  | some c => .fin (hv origin.lat origin.lng c.lat c.lng)
  | none => .inf

/-- Model of the `distMap` construction: a `Map` keyed by `event.id`,
populated left to right over the (date-filtered) list, later entries
overwriting earlier ones with the same id. -/
def buildDistMap (hv : ℚ → ℚ → ℚ → ℚ → ℚ) (origin : Coords)
    (list : List EventWithLocation) : String → Option JsNum :=
  list.foldl (fun m e => fun k => if k = e.id then some (eventDist hv origin e) else m k)
    (fun _ => none)

/-- The sort comparator `(a, b) => da - db` on distances, as the boolean
relation "comparator result ≤ 0" used by the stable sort.  Per the
ECMAScript `SortCompare` coercion a NaN comparator result (here only from
`Infinity - Infinity`) counts as `+0`; `Infinity - finite` is positive and
`finite - Infinity` negative. -/
def cmpLE : JsNum → JsNum → Bool
  | .fin a, .fin b => a ≤ b
  | .fin _, .inf => true
  | .inf, .fin _ => false
  | .inf, .inf => true

/-- The radius filter test `(distMap.get(d.id) ?? Infinity) <= withinMilesNum`
for a finite radius `n`: false for the `Infinity` sentinel. -/
def radiusLE (d : JsNum) (n : ℤ) : Bool :=
  match d with
  | .fin q => q ≤ (n : ℚ)
  | .inf => false

/-- The date-filter step of the engine: `if (dateFilter) list = list.filter(...)`,
where an empty filter string is falsy. -/
def dateFilteredEvents (events : List EventWithLocation) (dateFilter : String) :
    List EventWithLocation :=
  if dateFilter ≠ "" then events.filter (fun e => e.event_date = dateFilter) else events

/-- The lookup `distMap.get(e.id) ?? Infinity` against the distance map
built from `list`. -/
def dget (hv : ℚ → ℚ → ℚ → ℚ → ℚ) (origin : Coords)
    (list : List EventWithLocation) (e : EventWithLocation) : JsNum :=
  (buildDistMap hv origin list e.id).getD .inf

/-- Model of the `filteredAndSortedEvents` memo of `EventListWithFilters`:
date filter, then (when an origin resolved) distance map construction,
stable sort by the distance comparator, and — when a radius is set and
positive — the radius filter.  `withinMiles = none` models the empty
"Show all" option (`withinMilesNum = null`). -/
def filteredAndSortedEvents (hv : ℚ → ℚ → ℚ → ℚ → ℚ)
    (events : List EventWithLocation) (dateFilter : String)
    (originCoords : Option Coords) (withinMiles : Option ℤ) :
    List EventWithLocation :=
  let list := dateFilteredEvents events dateFilter
  match originCoords with
  | none => list
  | some origin =>
    let sorted := list.mergeSort (fun a b => cmpLE (dget hv origin list a) (dget hv origin list b))
    match withinMiles with
    | none => sorted
    | some n =>
      if 0 < n then sorted.filter (fun e => radiusLE (dget hv origin list e) n) else sorted

/-- Model of `Math.atan2 y x` over the reals: the argument of the complex
number `x + y·i`. -/
noncomputable def jsAtan2 (y x : ℝ) : ℝ := Complex.arg ⟨x, y⟩

/-- Model of `haversineMiles` (src/lib/geo.ts) over the reals: Earth
radius 3959 miles, degree-to-radian conversion, the haversine term `a`,
and `c = 2·atan2(√a, √(1−a))`. -/
noncomputable def haversineMiles (lat1 lng1 lat2 lng2 : ℝ) : ℝ :=
  let R : ℝ := 3959
  let dLat := (lat2 - lat1) * Real.pi / 180
  let dLng := (lng2 - lng1) * Real.pi / 180
  let a := Real.sin (dLat / 2) * Real.sin (dLat / 2) +
    Real.cos (lat1 * Real.pi / 180) * Real.cos (lat2 * Real.pi / 180) *
      Real.sin (dLng / 2) * Real.sin (dLng / 2)
  let c := 2 * jsAtan2 (Real.sqrt a) (Real.sqrt (1 - a))
  R * c

/-- The `MenuItem` row type of `OrderForm`.  The `price` field (a string
or number in the source, read through `getPrice`) is modelled directly as
its numeric value; it plays no role in the availability/wait-time logic. -/
structure MenuItem where
  id : String
  name : String
  description : Option String
  price : ℚ
  category : String
  prep_time_minutes : Option ℚ
  dietary_tags : Option (List String)
  dine_in_only : Option Bool
  pickup_only : Option Bool
deriving DecidableEq

/-- The two order types of `OrderForm`. -/
inductive OrderType where
  | dine_in
  | pickup
deriving DecidableEq

/-- Model of `filteredMenuItems`: an item is kept for dine-in unless its
`pickup_only` flag (defaulted to false) is set, and kept for pickup unless
its `dine_in_only` flag (defaulted to false) is set. -/
def filteredMenuItems (menuItems : List MenuItem) (orderType : OrderType) : List MenuItem :=
  menuItems.filter (fun item =>
    let dineInOnly := item.dine_in_only.getD false
    let pickupOnly := item.pickup_only.getD false
    match orderType with
    | .dine_in => !pickupOnly
    | .pickup => !dineInOnly)

/-- The items contributing to `lineItems`: available items whose selected
quantity (`quantities[item.id] ?? 0`) is positive. -/
def selectedItems (menuItems : List MenuItem) (orderType : OrderType)
    (quantities : String → Nat) : List MenuItem :=
  (filteredMenuItems menuItems orderType).filter (fun item => 0 < quantities item.id)

/-- Model of the `prepTimes` array: the `prep_time_minutes` of the line
items, keeping only values that are set (`typeof m === "number"`) and
strictly positive. -/
def prepTimes (items : List MenuItem) : List ℚ :=
  items.filterMap (fun item =>
    match item.prep_time_minutes with
    | some m => if 0 < m then some m else none
    | none => none)

/-- Model of `Math.max(...args)` for a non-empty argument list of finite
numbers. -/
def jsMathMax (t : ℚ) (ts : List ℚ) : ℚ := ts.foldl max t

/-- Model of `estimatedWaitMinutes`:
`prepTimes.length > 0 ? Math.max(...prepTimes) : undefined`. -/
def estimatedWaitMinutes (menuItems : List MenuItem) (orderType : OrderType)
    (quantities : String → Nat) : Option ℚ :=
  match prepTimes (selectedItems menuItems orderType quantities) with
  | [] => none
  | t :: ts => some (jsMathMax t ts)

/-- Result type of the email collaborator (src/lib/email.ts): success with
an optional provider id, or a failure message. -/
inductive EmailResult where
  | ok (id : Option String)
  | failed (msg : String)
deriving DecidableEq

/-- Model of `sendOrderReady` (src/lib/email.ts): no-op failure when no
API credential is configured, else the provider send call, whose outcome
is the environment parameter `resendSend`. -/
def sendOrderReady (apiKeyConfigured : Bool)
    (resendSend : String → String → EmailResult) (toAddr locationName : String) : EmailResult :=
  if apiKeyConfigured = false then .failed "Email not configured"
  else resendSend toAddr locationName

/-- Model of the server action `notifyOrderReady`
(src/app/admin/orders/actions.ts): rejects a blank customer email, else
delegates to `sendOrderReady` with the trimmed address. -/
def notifyOrderReady (apiKeyConfigured : Bool)
    (resendSend : String → String → EmailResult)
    (customerEmail locationName : String) : EmailResult :=
  if String.mk (jsTrim customerEmail.toList) = "" then .failed "No customer email"
  else sendOrderReady apiKeyConfigured resendSend
    (String.mk (jsTrim customerEmail.toList)) locationName

/-- The fields of an admin `OrderRow` relevant to the status flow
(`customer_email` is a nullable column). -/
structure OrderRow where
  id : String
  customer_name : String
  customer_email : Option String
  status : String
deriving DecidableEq

/-- The value of `order.customer_email?.trim()` (empty when the column is
null). -/
def trimmedEmail (order : OrderRow) : String :=
  String.mk (jsTrim (order.customer_email.getD "").toList)

/-- Observable outcome of one `setStatus` call: the order status recorded
in the database afterwards, whether a notification email was attempted,
and the result of that attempt when it was made. -/
structure SetStatusOutcome where
  statusAfter : String
  emailAttempted : Bool
  emailResult : Option EmailResult
deriving DecidableEq

/-- Model of `setStatus` (src/app/admin/orders/page.tsx): the database
update runs first and a failure aborts the flow; on success the new status
is recorded, and — only when the new status is "ready" and the order's
customer email is non-blank (`order.customer_email?.trim()`) — the
notification email is attempted, its result being ignored. -/
def setStatus (dbUpdateError : Bool) (apiKeyConfigured : Bool)
    (resendSend : String → String → EmailResult) (locationName : String)
    (order : OrderRow) (newStatus : String) : SetStatusOutcome :=
  if dbUpdateError then ⟨order.status, false, none⟩
  else if newStatus = "ready" ∧ trimmedEmail order ≠ "" then
    ⟨newStatus, true,
      some (notifyOrderReady apiKeyConfigured resendSend (trimmedEmail order) locationName)⟩
  else ⟨newStatus, false, none⟩

/-- Fuel-indexed twin of `replaceAbbrPass`, structurally recursive so that
the kernel can evaluate it on literals; it agrees with `replaceAbbrPass`
whenever the fuel covers the input length (`replaceAbbrPassF_eq`). -/
def replaceAbbrPassF (a : Char) (ab rep : List Char) : Nat → Bool → List Char → List Char
  | 0, _, cs => cs
  | _ + 1, _, [] => []
  | fuel + 1, prev, c :: cs =>
    match abbrMatchLen a ab prev (c :: cs) with
    | some j => rep ++ replaceAbbrPassF a ab rep fuel (j == ab.length) (cs.drop j)
    | none => c :: replaceAbbrPassF a ab rep fuel (wordChar c) cs

/-- Fuel-indexed twin of `collapseWs` (see `collapseWsF_eq`). -/
def collapseWsF : Nat → List Char → List Char
  | 0, cs => cs
  | _ + 1, [] => []
  | fuel + 1, c :: cs =>
    if wsChar c then ' ' :: collapseWsF fuel (cs.dropWhile wsChar)
    else c :: collapseWsF fuel cs

/-- Kernel-evaluable implementation of `normalizeCityName`, using the
fuel-indexed twins with just enough fuel; provably equal to
`normalizeCityName` (`normalizeCityName_eq_impl`). -/
def normalizeCityNameI (name : String) : String :=
  if name = "" then ""
  else
    let s0 := (jsTrim name.toList).map Char.toLower
    let s1 := abbrevTable.foldl (fun s p => replaceAbbrPassF p.1.1 p.1.2 p.2 s.length false s) s0
    String.mk (jsTrim (collapseWsF s1.length s1))

/-- A concrete stand-in for the haversine float function used in concrete
engine runs: it returns the event's latitude, so an event at latitude `d`
(longitude 0) lies at "distance" `d`; the real haversine realizes the same
distances from a (0,0) origin at suitable coordinates. -/
def hvLat : ℚ → ℚ → ℚ → ℚ → ℚ := fun _ _ la _ => la

/-- A location with stored coordinates at latitude 5. -/
def locNear : Location := ⟨some "Hall A", some "Saint Louis", some "MO", none, some 5, some 0⟩

/-- A location with stored coordinates at latitude 50. -/
def locFar : Location := ⟨some "Hall B", some "Chicago", some "IL", none, some 50, some 0⟩

/-- A location without stored coordinates. -/
def locNoCoords : Location := ⟨some "Hall C", some "Troy", some "MO", none, none, none⟩

/-- Event with id "a" at the near location (computed distance 5 under
`hvLat` from any origin). -/
def evNear : EventWithLocation := ⟨"a", "2025-03-07", none, none, true, true, some locNear⟩

/-- A second event with the same id "a" but no stored coordinates. -/
def evDupNoCoords : EventWithLocation := ⟨"a", "2025-03-07", none, none, true, false, some locNoCoords⟩

/-- Event with id "b" at the far location (computed distance 50 under
`hvLat`). -/
def evFar : EventWithLocation := ⟨"b", "2025-03-07", none, none, true, true, some locFar⟩

/-- The maximal word-character runs of a string, in order.  A regex match
of `\b<abbr>\.?\b` exists at some position exactly when some run equals
`abbr`, which drives the idempotence analysis of `normalizeCityName`. -/
def words : List Char → List (List Char)
  | [] => []
  | c :: cs =>
    if wordChar c then (c :: cs.takeWhile wordChar) :: words (cs.dropWhile wordChar)
    else words cs
termination_by cs => cs.length
decreasing_by
  · have := (List.dropWhile_sublist (l := cs) wordChar).length_le
    simp
    omega
  · simp

/-- Conditions on a replacement-table entry: a word-character pattern, a
non-empty word-character replacement strictly longer than the pattern. -/
def entryOK (p : (Char × List Char) × List Char) : Prop :=
  wordChar p.1.1 = true ∧ (∀ c ∈ p.1.2, wordChar c = true) ∧ p.2 ≠ [] ∧
    (∀ c ∈ p.2, wordChar c = true) ∧ p.1.2.length + 1 < p.2.length

/-! ## Helper lemmas -/

theorem words_nil : words [] = [] := by
  rw [words]

theorem words_cons_word {c : Char} (h : wordChar c = true) (cs : List Char) :
    words (c :: cs) = (c :: cs.takeWhile wordChar) :: words (cs.dropWhile wordChar) := by
  rw [words, if_pos h]

theorem words_cons_nonword {c : Char} (h : wordChar c = false) (cs : List Char) :
    words (c :: cs) = words cs := by
  rw [words, if_neg]
  simp [h]

theorem takeWhile_append_all {p : Char → Bool} :
    ∀ (u t : List Char), (∀ c ∈ u, p c = true) → (u ++ t).takeWhile p = u ++ t.takeWhile p := by
  intro u t h
  induction u with
  | nil => rfl
  | cons x u ih =>
    rw [List.cons_append, List.takeWhile_cons, h x (List.mem_cons_self _ _)]
    simp only []
    rw [ih (fun c hc => h c (List.mem_cons_of_mem _ hc))]
    rfl

theorem dropWhile_append_all {p : Char → Bool} :
    ∀ (u t : List Char), (∀ c ∈ u, p c = true) → (u ++ t).dropWhile p = t.dropWhile p := by
  intro u t h
  induction u with
  | nil => rfl
  | cons x u ih =>
    rw [List.cons_append, List.dropWhile_cons, h x (List.mem_cons_self _ _)]
    simp only []
    exact ih (fun c hc => h c (List.mem_cons_of_mem _ hc))

theorem takeWhile_append_none {p : Char → Bool} :
    ∀ (u w : List Char), (∀ c ∈ w, p c = false) → (u ++ w).takeWhile p = u.takeWhile p := by
  intro u w h
  induction u with
  | nil =>
    cases w with
    | nil => rfl
    | cons x ws =>
      simp [List.takeWhile_cons, h x (List.mem_cons_self _ _)]
  | cons x u ih =>
    rw [List.cons_append, List.takeWhile_cons, List.takeWhile_cons]
    cases hx : p x with
    | true => simp [ih]
    | false => rfl

theorem dropWhile_append_none {p : Char → Bool} :
    ∀ (u w : List Char), (∀ c ∈ w, p c = false) → (u ++ w).dropWhile p = u.dropWhile p ++ w := by
  intro u w h
  induction u with
  | nil =>
    cases w with
    | nil => rfl
    | cons x ws =>
      simp [List.dropWhile_cons, h x (List.mem_cons_self _ _)]
  | cons x u ih =>
    rw [List.cons_append, List.dropWhile_cons, List.dropWhile_cons]
    cases hx : p x with
    | true => simp [ih]
    | false => rfl

theorem words_append_allword (u t : List Char) (hne : u ≠ [])
    (hall : ∀ c ∈ u, wordChar c = true) :
    words (u ++ t) = (u ++ t.takeWhile wordChar) :: words (t.dropWhile wordChar) := by
  cases u with
  | nil => exact absurd rfl hne
  | cons c u =>
    rw [List.cons_append, words_cons_word (hall c (List.mem_cons_self _ _)),
      takeWhile_append_all u t (fun c hc => hall c (List.mem_cons_of_mem _ hc)),
      dropWhile_append_all u t (fun c hc => hall c (List.mem_cons_of_mem _ hc))]
    rfl

theorem words_allword (u : List Char) (hne : u ≠ [])
    (hall : ∀ c ∈ u, wordChar c = true) : words u = [u] := by
  have h := words_append_allword u [] hne hall
  simpa [words_nil] using h

theorem words_eq_nil_of_nonword :
    ∀ (w : List Char), (∀ c ∈ w, wordChar c = false) → words w = [] := by
  intro w h
  induction w with
  | nil => exact words_nil
  | cons x ws ih =>
    rw [words_cons_nonword (h x (List.mem_cons_self _ _))]
    exact ih (fun c hc => h c (List.mem_cons_of_mem _ hc))

theorem words_prepend_nonword :
    ∀ (w u : List Char), (∀ c ∈ w, wordChar c = false) → words (w ++ u) = words u := by
  intro w u h
  induction w with
  | nil => rfl
  | cons x ws ih =>
    rw [List.cons_append, words_cons_nonword (h x (List.mem_cons_self _ _))]
    exact ih (fun c hc => h c (List.mem_cons_of_mem _ hc))

theorem words_append_nonword (w : List Char) (hw : ∀ c ∈ w, wordChar c = false) :
    ∀ (n : Nat) (u : List Char), u.length ≤ n → words (u ++ w) = words u := by
  intro n
  induction n with
  | zero =>
    intro u hu
    have hnil : u = [] := List.eq_nil_of_length_eq_zero (Nat.le_zero.mp hu)
    subst hnil
    rw [words_nil, List.nil_append]
    exact words_eq_nil_of_nonword w hw
  | succ n ih =>
    intro u hu
    cases u with
    | nil =>
      rw [words_nil, List.nil_append]
      exact words_eq_nil_of_nonword w hw
    | cons c u =>
      by_cases hc : wordChar c = true
      · rw [List.cons_append, words_cons_word hc, words_cons_word hc,
          takeWhile_append_none u w hw, dropWhile_append_none u w hw]
        have hlen : (u.dropWhile wordChar).length ≤ n := by
          have := (List.dropWhile_sublist (l := u) wordChar).length_le
          simp at hu
          omega
        rw [ih _ hlen]
      · have hc2 : wordChar c = false := by
          cases h2 : wordChar c
          · rfl
          · exact absurd h2 hc
        rw [List.cons_append, words_cons_nonword hc2, words_cons_nonword hc2]
        have hlen : u.length ≤ n := by
          simp at hu
          omega
        exact ih u hlen

theorem words_dropWhile_word_sub (T : List Char) :
    ∀ r ∈ words (T.dropWhile wordChar), r ∈ words T := by
  intro r hr
  cases T with
  | nil => exact hr
  | cons c T =>
    by_cases hc : wordChar c = true
    · rw [List.dropWhile_cons, hc] at hr
      simp only [if_true] at hr
      rw [words_cons_word hc]
      exact List.mem_cons_of_mem _ hr
    · have hc2 : wordChar c = false := by
        cases h2 : wordChar c
        · rfl
        · exact absurd h2 hc
      rw [List.dropWhile_cons, hc2] at hr
      simp only [Bool.false_eq_true, if_false] at hr
      exact hr

theorem wsChar_not_wordChar {c : Char} (h : wsChar c = true) : wordChar c = false := by
  have h2 := of_decide_eq_true h
  rcases h2 with rfl | rfl | rfl | rfl | rfl | rfl <;> decide

theorem not_wordChar_of_not (c : Char) (h : ¬ wordChar c = true) : wordChar c = false := by
  cases h2 : wordChar c
  · rfl
  · exact absurd h2 h

theorem collapseWs_nil : collapseWs [] = [] := by
  rw [collapseWs]

theorem collapseWs_cons (c : Char) (cs : List Char) :
    collapseWs (c :: cs) =
      if wsChar c then ' ' :: collapseWs (cs.dropWhile wsChar) else c :: collapseWs cs := by
  rw [collapseWs]

theorem dropWhile_head_false {p : Char → Bool} :
    ∀ (l : List Char) (c : Char) (t : List Char), l.dropWhile p = c :: t → p c = false := by
  intro l
  induction l with
  | nil =>
    intro c t h
    simp at h
  | cons x xs ih =>
    intro c t h
    rw [List.dropWhile_cons] at h
    by_cases hx : p x = true
    · rw [hx] at h
      simp only [if_true] at h
      exact ih c t h
    · have hx2 : p x = false := by
        cases h2 : p x
        · rfl
        · exact absurd h2 hx
      rw [hx2] at h
      simp only [Bool.false_eq_true, if_false] at h
      injection h with h1 h2
      rw [← h1]
      exact hx2

theorem collapse_take_drop :
    ∀ (t : List Char),
      (collapseWs t).takeWhile wordChar = t.takeWhile wordChar ∧
      (collapseWs t).dropWhile wordChar = collapseWs (t.dropWhile wordChar) := by
  intro t
  induction t with
  | nil => rw [collapseWs_nil]; exact ⟨rfl, by simp [collapseWs_nil]⟩
  | cons x t ih =>
    by_cases hx : wsChar x = true
    · have hxw : wordChar x = false := wsChar_not_wordChar hx
      rw [collapseWs_cons, if_pos hx]
      constructor
      · rw [List.takeWhile_cons, List.takeWhile_cons, hxw,
          (by decide : wordChar ' ' = false)]
        simp
      · rw [List.dropWhile_cons, List.dropWhile_cons, hxw,
          (by decide : wordChar ' ' = false)]
        simp only [Bool.false_eq_true, if_false]
        rw [collapseWs_cons, if_pos hx]
    · have hx2 : wsChar x = false := by
        cases h2 : wsChar x
        · rfl
        · exact absurd h2 hx
      rw [collapseWs_cons, if_neg (by rw [hx2]; exact Bool.false_ne_true)]
      by_cases hw : wordChar x = true
      · constructor
        · rw [List.takeWhile_cons, List.takeWhile_cons, hw]
          simp only [if_true]
          rw [ih.1]
        · rw [List.dropWhile_cons, List.dropWhile_cons, hw]
          simp only [if_true]
          exact ih.2
      · have hw2 : wordChar x = false := not_wordChar_of_not x hw
        constructor
        · rw [List.takeWhile_cons, List.takeWhile_cons, hw2]
          simp
        · rw [List.dropWhile_cons, List.dropWhile_cons, hw2]
          simp only [Bool.false_eq_true, if_false]
          rw [collapseWs_cons, if_neg (by rw [hx2]; exact Bool.false_ne_true)]

theorem words_dropWhile_ws (s : List Char) :
    words (s.dropWhile wsChar) = words s := by
  conv_rhs => rw [← List.takeWhile_append_dropWhile wsChar s]
  rw [words_prepend_nonword]
  intro c hc
  exact wsChar_not_wordChar (List.mem_takeWhile_imp hc)

theorem words_collapse :
    ∀ (n : Nat) (s : List Char), s.length ≤ n → words (collapseWs s) = words s := by
  intro n
  induction n with
  | zero =>
    intro s hs
    have hnil : s = [] := List.eq_nil_of_length_eq_zero (Nat.le_zero.mp hs)
    subst hnil
    rw [collapseWs_nil]
  | succ n ih =>
    intro s hs
    cases s with
    | nil => rw [collapseWs_nil]
    | cons c cs =>
      by_cases hc : wsChar c = true
      · rw [collapseWs_cons, if_pos hc]
        rw [words_cons_nonword (by decide : wordChar ' ' = false),
          words_cons_nonword (wsChar_not_wordChar hc)]
        have hlen : (cs.dropWhile wsChar).length ≤ n := by
          have := (List.dropWhile_sublist (l := cs) wsChar).length_le
          simp at hs
          omega
        rw [ih _ hlen, words_dropWhile_ws]
      · have hc2 : wsChar c = false := by
          cases h2 : wsChar c
          · rfl
          · exact absurd h2 hc
        rw [collapseWs_cons, if_neg (by rw [hc2]; exact Bool.false_ne_true)]
        by_cases hw : wordChar c = true
        · rw [words_cons_word hw, words_cons_word hw,
            (collapse_take_drop cs).1, (collapse_take_drop cs).2]
          have hlen : (cs.dropWhile wordChar).length ≤ n := by
            have := (List.dropWhile_sublist (l := cs) wordChar).length_le
            simp at hs
            omega
          rw [ih _ hlen]
        · have hw2 : wordChar c = false := not_wordChar_of_not c hw
          rw [words_cons_nonword hw2, words_cons_nonword hw2]
          have hlen : cs.length ≤ n := by
            simp at hs
            omega
          exact ih cs hlen

theorem jsTrim_decomp (z : List Char) :
    z.dropWhile wsChar = jsTrim z ++ ((z.dropWhile wsChar).reverse.takeWhile wsChar).reverse := by
  unfold jsTrim
  conv_lhs => rw [← (z.dropWhile wsChar).reverse_reverse]
  conv_lhs =>
    rw [← List.takeWhile_append_dropWhile wsChar (z.dropWhile wsChar).reverse]
  rw [List.reverse_append]

theorem words_jsTrim (z : List Char) : words (jsTrim z) = words z := by
  have h1 : words (z.dropWhile wsChar) = words z := words_dropWhile_ws z
  have h2 := jsTrim_decomp z
  rw [← h1, h2, words_append_nonword _ ?_ (jsTrim z).length (jsTrim z) (le_refl _)]
  intro c hc
  rw [List.mem_reverse] at hc
  exact wsChar_not_wordChar (List.mem_takeWhile_imp hc)

theorem dropWhile_dropWhile {p : Char → Bool} (l : List Char) :
    (l.dropWhile p).dropWhile p = l.dropWhile p := by
  cases hd : l.dropWhile p with
  | nil => rfl
  | cons c t =>
    rw [List.dropWhile_cons, dropWhile_head_false l c t hd]
    simp

theorem jsTrim_head_drop (z : List Char) : (jsTrim z).dropWhile wsChar = jsTrim z := by
  cases hJ : jsTrim z with
  | nil => rfl
  | cons c t =>
    have h2 := jsTrim_decomp z
    rw [hJ] at h2
    rw [List.cons_append] at h2
    have hc : wsChar c = false := dropWhile_head_false z c _ h2
    rw [List.dropWhile_cons, hc]
    simp

theorem jsTrim_rev_drop (z : List Char) :
    (jsTrim z).reverse.dropWhile wsChar = (jsTrim z).reverse := by
  unfold jsTrim
  rw [List.reverse_reverse]
  exact dropWhile_dropWhile _

theorem jsTrim_idem (z : List Char) : jsTrim (jsTrim z) = jsTrim z := by
  conv_lhs => rw [jsTrim]
  rw [jsTrim_head_drop, jsTrim_rev_drop, List.reverse_reverse]

theorem mem_collapse :
    ∀ (n : Nat) (s : List Char), s.length ≤ n → ∀ c ∈ collapseWs s,
      (c ∈ s ∧ wsChar c = false) ∨ c = ' ' := by
  intro n
  induction n with
  | zero =>
    intro s hs c hc
    have hnil : s = [] := List.eq_nil_of_length_eq_zero (Nat.le_zero.mp hs)
    subst hnil
    rw [collapseWs_nil] at hc
    simp at hc
  | succ n ih =>
    intro s hs c hc
    cases s with
    | nil =>
      rw [collapseWs_nil] at hc
      simp at hc
    | cons x cs =>
      by_cases hx : wsChar x = true
      · rw [collapseWs_cons, if_pos hx] at hc
        rcases List.mem_cons.mp hc with h1 | h1
        · right
          exact h1
        · have hlen : (cs.dropWhile wsChar).length ≤ n := by
            have := (List.dropWhile_sublist (l := cs) wsChar).length_le
            simp at hs
            omega
          rcases ih _ hlen c h1 with ⟨hm, hw⟩ | h2
          · left
            exact ⟨List.mem_cons_of_mem _ ((List.dropWhile_sublist wsChar).subset hm), hw⟩
          · right
            exact h2
      · have hx2 : wsChar x = false := by
          cases h2 : wsChar x
          · rfl
          · exact absurd h2 hx
        rw [collapseWs_cons, if_neg (by rw [hx2]; exact Bool.false_ne_true)] at hc
        rcases List.mem_cons.mp hc with h1 | h1
        · left
          subst h1
          exact ⟨List.mem_cons_self _ _, hx2⟩
        · have hlen : cs.length ≤ n := by
            simp at hs
            omega
          rcases ih _ hlen c h1 with ⟨hm, hw⟩ | h2
          · left
            exact ⟨List.mem_cons_of_mem _ hm, hw⟩
          · right
            exact h2

theorem mem_jsTrim (z : List Char) (c : Char) (h : c ∈ jsTrim z) : c ∈ z := by
  have h2 := jsTrim_decomp z
  have h3 : c ∈ z.dropWhile wsChar := by
    rw [h2]
    exact List.mem_append_left _ h
  exact (List.dropWhile_sublist wsChar).subset h3

theorem collapse_head_nonws (t : List Char)
    (h : ∀ d v, t = d :: v → wsChar d = false) :
    ∀ c u, collapseWs t = c :: u → wsChar c = false := by
  intro c u hc
  cases t with
  | nil =>
    rw [collapseWs_nil] at hc
    simp at hc
  | cons x t =>
    have hx := h x t rfl
    rw [collapseWs_cons, if_neg (by rw [hx]; exact Bool.false_ne_true)] at hc
    injection hc with h1 h2
    rw [← h1]
    exact hx

theorem chain_collapse :
    ∀ (n : Nat) (s : List Char), s.length ≤ n →
      List.Chain' (fun a b => ¬(wsChar a = true ∧ wsChar b = true)) (collapseWs s) := by
  intro n
  induction n with
  | zero =>
    intro s hs
    have hnil : s = [] := List.eq_nil_of_length_eq_zero (Nat.le_zero.mp hs)
    subst hnil
    rw [collapseWs_nil]
    exact List.chain'_nil
  | succ n ih =>
    intro s hs
    cases s with
    | nil =>
      rw [collapseWs_nil]
      exact List.chain'_nil
    | cons x cs =>
      by_cases hx : wsChar x = true
      · rw [collapseWs_cons, if_pos hx]
        rw [List.chain'_cons']
        have hlen : (cs.dropWhile wsChar).length ≤ n := by
          have := (List.dropWhile_sublist (l := cs) wsChar).length_le
          simp at hs
          omega
        refine ⟨?_, ih _ hlen⟩
        intro b hb
        intro hcon
        have hhead : ∀ d v, cs.dropWhile wsChar = d :: v → wsChar d = false :=
          fun d v hdv => dropWhile_head_false cs d v hdv
        cases hZ : collapseWs (cs.dropWhile wsChar) with
        | nil =>
          rw [hZ] at hb
          simp at hb
        | cons z0 zt =>
          rw [hZ] at hb
          simp at hb
          have hz0 := collapse_head_nonws _ hhead z0 zt hZ
          rw [← hb] at hcon
          rw [hz0] at hcon
          exact Bool.false_ne_true hcon.2
      · have hx2 : wsChar x = false := by
          cases h2 : wsChar x
          · rfl
          · exact absurd h2 hx
        rw [collapseWs_cons, if_neg (by rw [hx2]; exact Bool.false_ne_true)]
        rw [List.chain'_cons']
        have hlen : cs.length ≤ n := by
          simp at hs
          omega
        refine ⟨?_, ih _ hlen⟩
        intro b _ hcon
        rw [hx2] at hcon
        exact Bool.false_ne_true hcon.1

theorem collapse_eq_self :
    ∀ (s : List Char), (∀ c ∈ s, wsChar c = true → c = ' ') →
      List.Chain' (fun a b => ¬(wsChar a = true ∧ wsChar b = true)) s →
      collapseWs s = s := by
  intro s
  induction s with
  | nil => intro _ _; exact collapseWs_nil
  | cons x cs ih =>
    intro hws hch
    by_cases hx : wsChar x = true
    · have hsp : x = ' ' := hws x (List.mem_cons_self _ _) hx
      rw [collapseWs_cons, if_pos hx]
      have hdrop : cs.dropWhile wsChar = cs := by
        cases cs with
        | nil => rfl
        | cons d cs2 =>
          have hrel := (List.chain'_cons.mp hch).1
          have hd : wsChar d = false := by
            cases h2 : wsChar d
            · rfl
            · exact absurd ⟨hx, h2⟩ hrel
          rw [List.dropWhile_cons, hd]
          simp
      rw [hdrop, ← hsp,
        ih (fun c hc hwc => hws c (List.mem_cons_of_mem _ hc) hwc) hch.tail]
    · have hx2 : wsChar x = false := by
        cases h2 : wsChar x
        · rfl
        · exact absurd h2 hx
      rw [collapseWs_cons, if_neg (by rw [hx2]; exact Bool.false_ne_true)]
      rw [ih (fun c hc hwc => hws c (List.mem_cons_of_mem _ hc) hwc) hch.tail]

theorem chain_jsTrim (z : List Char)
    (h : List.Chain' (fun a b => ¬(wsChar a = true ∧ wsChar b = true)) z) :
    List.Chain' (fun a b => ¬(wsChar a = true ∧ wsChar b = true)) (jsTrim z) := by
  have hz : z = z.takeWhile wsChar ++ (jsTrim z ++ ((z.dropWhile wsChar).reverse.takeWhile wsChar).reverse) := by
    rw [← jsTrim_decomp z, List.takeWhile_append_dropWhile]
  rw [hz] at h
  exact (h.right_of_append).left_of_append

theorem toLower_not_upper (c : Char) :
    (Char.toLower c).toNat < 65 ∨ 90 < (Char.toLower c).toNat := by
  unfold Char.toLower
  simp only []
  by_cases h : c.toNat ≥ 65 ∧ c.toNat ≤ 90
  · rw [if_pos h]
    have hv : Nat.isValidChar (c.toNat + 32) := by
      left
      omega
    have h2 : (Char.ofNat (c.toNat + 32)).toNat = c.toNat + 32 := by
      unfold Char.ofNat
      rw [dif_pos hv]
      unfold Char.ofNatAux Char.toNat
      simp [UInt32.toNat]
    omega
  · rw [if_neg h]
    omega

theorem toLower_eq_self (c : Char) (h : c.toNat < 65 ∨ 90 < c.toNat) :
    Char.toLower c = c := by
  unfold Char.toLower
  simp only []
  rw [if_neg]
  omega

theorem mem_pass (a : Char) (ab rep : List Char) :
    ∀ (n : Nat) (cs : List Char) (prev : Bool), cs.length ≤ n →
      ∀ c ∈ replaceAbbrPass a ab rep prev cs, c ∈ cs ∨ c ∈ rep := by
  intro n
  induction n with
  | zero =>
    intro cs prev hlen c hc
    have hnil : cs = [] := List.eq_nil_of_length_eq_zero (Nat.le_zero.mp hlen)
    subst hnil
    simp [replaceAbbrPass] at hc
  | succ n ih =>
    intro cs prev hlen c hc
    cases cs with
    | nil => simp [replaceAbbrPass] at hc
    | cons x cs =>
      cases hm : abbrMatchLen a ab prev (x :: cs) with
      | some j =>
        rw [replaceAbbrPass, hm] at hc
        simp only [] at hc
        rcases List.mem_append.mp hc with h1 | h1
        · right
          exact h1
        · have hlen2 : (cs.drop j).length ≤ n := by
            simp at hlen ⊢
            omega
          rcases ih _ _ hlen2 c h1 with h2 | h2
          · left
            exact List.mem_cons_of_mem _ (List.drop_subset j cs h2)
          · right
            exact h2
      | none =>
        rw [replaceAbbrPass, hm] at hc
        simp only [] at hc
        rcases List.mem_cons.mp hc with h1 | h1
        · left
          rw [h1]
          exact List.mem_cons_self _ _
        · have hlen2 : cs.length ≤ n := by
            simp at hlen
            omega
          rcases ih _ _ hlen2 c h1 with h2 | h2
          · left
            exact List.mem_cons_of_mem _ h2
          · right
            exact h2

theorem mem_passes_fold :
    ∀ (l : List ((Char × List Char) × List Char)) (s : List Char) (c : Char),
      c ∈ l.foldl (fun s p => replaceAbbrPass p.1.1 p.1.2 p.2 false s) s →
      c ∈ s ∨ ∃ p ∈ l, c ∈ p.2 := by
  intro l
  induction l with
  | nil =>
    intro s c hc
    left
    exact hc
  | cons p ps ih =>
    intro s c hc
    rw [List.foldl_cons] at hc
    rcases ih _ c hc with h1 | ⟨q, hq, hcq⟩
    · rcases mem_pass p.1.1 p.1.2 p.2 s.length s false (le_refl _) c h1 with h2 | h2
      · left
        exact h2
      · right
        exact ⟨p, List.mem_cons_self _ _, h2⟩
    · right
      exact ⟨q, List.mem_cons_of_mem _ hq, hcq⟩

theorem isPrefixOf_iff_append0 :
    ∀ (s t : List Char), s.isPrefixOf t = true ↔ ∃ r, t = s ++ r := by
  intro s
  induction s with
  | nil =>
    intro t
    simp [List.isPrefixOf]
  | cons a as ih =>
    intro t
    cases t with
    | nil => simp [List.isPrefixOf]
    | cons b bs =>
      simp [List.isPrefixOf, ih bs, eq_comm (a := b) (b := a)]

theorem pass_nil (a : Char) (ab rep : List Char) (prev : Bool) :
    replaceAbbrPass a ab rep prev [] = [] := by
  rw [replaceAbbrPass]

theorem abbrMatchLen_true (a : Char) (ab : List Char) (cs : List Char) :
    abbrMatchLen a ab true cs = none := by
  unfold abbrMatchLen
  simp

theorem abbrMatchLen_false_some (a : Char) (ab : List Char) (cs : List Char) (j : Nat)
    (hm : abbrMatchLen a ab false cs = some j) :
    ∃ rest, cs = (a :: ab) ++ rest ∧
      ((j = ab.length ∧ (rest = [] ∨ ∃ x t, rest = x :: t ∧ wordChar x = false)) ∨
       (j = ab.length + 1 ∧ ∃ d t, rest = '.' :: d :: t ∧ wordChar d = true)) := by
  unfold abbrMatchLen at hm
  simp only [Bool.false_eq_true, if_false] at hm
  by_cases hp : (a :: ab).isPrefixOf cs = true
  · rw [if_pos hp] at hm
    obtain ⟨rest, hrest⟩ := (isPrefixOf_iff_append0 (a :: ab) cs).mp hp
    have hdrop : cs.drop (ab.length + 1) = rest := by
      rw [hrest]
      have hL : ab.length + 1 = (a :: ab).length := by simp
      rw [hL, List.drop_left]
    rw [hdrop] at hm
    refine ⟨rest, hrest, ?_⟩
    cases rest with
    | nil =>
      simp only [Option.some.injEq] at hm
      exact Or.inl ⟨hm.symm, Or.inl rfl⟩
    | cons x t =>
      simp only [] at hm
      by_cases hx : x = '.'
      · rw [if_pos hx] at hm
        cases t with
        | nil =>
          simp only [Option.some.injEq] at hm
          subst hx
          exact Or.inl ⟨hm.symm, Or.inr ⟨'.', [], rfl, by decide⟩⟩
        | cons d t2 =>
          have hm2 : (if wordChar d = true then some (ab.length + 1) else some ab.length)
              = some j := hm
          by_cases hd : wordChar d = true
          · rw [if_pos hd] at hm2
            simp only [Option.some.injEq] at hm2
            subst hx
            exact Or.inr ⟨hm2.symm, d, t2, rfl, hd⟩
          · rw [if_neg hd] at hm2
            simp only [Option.some.injEq] at hm2
            subst hx
            exact Or.inl ⟨hm2.symm, Or.inr ⟨'.', d :: t2, rfl, by decide⟩⟩
      · rw [if_neg hx] at hm
        by_cases hw : wordChar x = true
        · rw [if_pos hw] at hm
          simp at hm
        · rw [if_neg hw] at hm
          simp only [Option.some.injEq] at hm
          exact Or.inl ⟨hm.symm, Or.inr ⟨x, t, rfl, not_wordChar_of_not x hw⟩⟩
  · rw [if_neg hp] at hm
    simp at hm

theorem abbrMatchLen_false_some_of_split (a : Char) (ab : List Char) (cs rest : List Char)
    (hsplit : cs = (a :: ab) ++ rest)
    (hhead : rest = [] ∨ ∃ x t, rest = x :: t ∧ (x = '.' ∨ wordChar x = false)) :
    abbrMatchLen a ab false cs ≠ none := by
  unfold abbrMatchLen
  simp only [Bool.false_eq_true, if_false]
  rw [if_pos ((isPrefixOf_iff_append0 _ _).mpr ⟨rest, hsplit⟩)]
  have hdrop : cs.drop (ab.length + 1) = rest := by
    rw [hsplit]
    have hL : ab.length + 1 = (a :: ab).length := by simp
    rw [hL, List.drop_left]
  rw [hdrop]
  rcases hhead with rfl | ⟨x, t, rfl, hx⟩
  · simp
  · simp only []
    rcases hx with rfl | hx
    · rw [if_pos rfl]
      cases t with
      | nil => simp
      | cons d t2 =>
        show (if wordChar d = true then some (ab.length + 1) else some ab.length) ≠ none
        by_cases hd : wordChar d = true
        · rw [if_pos hd]
          simp
        · rw [if_neg hd]
          simp
    · by_cases hdot : x = '.'
      · rw [if_pos hdot]
        cases t with
        | nil => simp
        | cons d t2 =>
          show (if wordChar d = true then some (ab.length + 1) else some ab.length) ≠ none
          by_cases hd : wordChar d = true
          · rw [if_pos hd]
            simp
          · rw [if_neg hd]
            simp
      · rw [if_neg hdot, hx]
        simp

theorem abbrMatchLen_false_none_of_avoid (a : Char) (ab : List Char)
    (ha : wordChar a = true) (hab : ∀ c ∈ ab, wordChar c = true)
    (cs : List Char) (h : ∀ r ∈ words cs, r ≠ a :: ab) :
    abbrMatchLen a ab false cs = none := by
  cases hm : abbrMatchLen a ab false cs with
  | none => rfl
  | some j =>
    exfalso
    obtain ⟨rest, hrest, hcase⟩ := abbrMatchLen_false_some a ab cs j hm
    have hhead : rest = [] ∨ ∃ x t, rest = x :: t ∧ wordChar x = false := by
      rcases hcase with ⟨_, h2⟩ | ⟨_, d, t, h2, _⟩
      · exact h2
      · exact Or.inr ⟨'.', d :: t, h2, by decide⟩
    have hallX : ∀ c ∈ a :: ab, wordChar c = true := by
      intro c hc
      rcases List.mem_cons.mp hc with h1 | h1
      · rw [h1]
        exact ha
      · exact hab c h1
    have hX : (a :: ab) ∈ words cs := by
      rw [hrest, words_append_allword (a :: ab) rest (by simp) hallX]
      have htk : rest.takeWhile wordChar = [] := by
        rcases hhead with rfl | ⟨x, t, rfl, hx⟩
        · rfl
        · rw [List.takeWhile_cons, hx]
          simp
      rw [htk]
      simp
    exact h _ hX rfl

theorem pass_true_skip (a : Char) (ab rep : List Char) :
    ∀ (cs : List Char), replaceAbbrPass a ab rep true cs =
      cs.takeWhile wordChar ++
        (match cs.dropWhile wordChar with
         | [] => []
         | c₀ :: r2 => c₀ :: replaceAbbrPass a ab rep false r2) := by
  intro cs
  induction cs with
  | nil => simp [pass_nil]
  | cons c cs ih =>
    rw [replaceAbbrPass, abbrMatchLen_true]
    simp only []
    by_cases hc : wordChar c = true
    · rw [List.takeWhile_cons, List.dropWhile_cons, hc]
      simp only [if_true]
      rw [ih]
      rfl
    · have hc2 := not_wordChar_of_not c hc
      rw [List.takeWhile_cons, List.dropWhile_cons, hc2]
      simp only [Bool.false_eq_true, if_false]
      rfl

theorem pass_id_of_avoid (a : Char) (ab rep : List Char)
    (ha : wordChar a = true) (hab : ∀ c ∈ ab, wordChar c = true) :
    ∀ (n : Nat) (cs : List Char) (prev : Bool), cs.length ≤ n →
      (∀ r ∈ words (if prev then cs.dropWhile wordChar else cs), r ≠ a :: ab) →
      replaceAbbrPass a ab rep prev cs = cs := by
  intro n
  induction n with
  | zero =>
    intro cs prev hlen _
    have hnil : cs = [] := List.eq_nil_of_length_eq_zero (Nat.le_zero.mp hlen)
    subst hnil
    exact pass_nil a ab rep prev
  | succ n ih =>
    intro cs prev hlen h
    cases cs with
    | nil => exact pass_nil a ab rep prev
    | cons c cs' =>
      cases prev with
      | false =>
        simp only [Bool.false_eq_true, if_false] at h
        have hm := abbrMatchLen_false_none_of_avoid a ab ha hab (c :: cs') h
        rw [replaceAbbrPass, hm]
        simp only []
        have hlen2 : cs'.length ≤ n := by
          simp at hlen
          omega
        rw [ih cs' (wordChar c) hlen2 ?_]
        by_cases hc : wordChar c = true
        · rw [hc]
          simp only [if_true]
          intro r hr
          apply h
          rw [words_cons_word hc]
          exact List.mem_cons_of_mem _ hr
        · have hc2 := not_wordChar_of_not c hc
          rw [hc2]
          simp only [Bool.false_eq_true, if_false]
          intro r hr
          apply h
          rw [words_cons_nonword hc2]
          exact hr
      | true =>
        simp only [if_true] at h
        rw [replaceAbbrPass, abbrMatchLen_true]
        simp only []
        have hlen2 : cs'.length ≤ n := by
          simp at hlen
          omega
        rw [ih cs' (wordChar c) hlen2 ?_]
        by_cases hc : wordChar c = true
        · rw [hc]
          simp only [if_true]
          intro r hr
          apply h
          rw [List.dropWhile_cons, hc]
          simp only [if_true]
          exact hr
        · have hc2 := not_wordChar_of_not c hc
          rw [hc2]
          simp only [Bool.false_eq_true, if_false]
          intro r hr
          apply h
          rw [List.dropWhile_cons, hc2]
          simp only [Bool.false_eq_true, if_false]
          rw [words_cons_nonword hc2]
          exact hr

theorem words_pass_false (a : Char) (ab rep : List Char)
    (ha : wordChar a = true) (hab : ∀ c ∈ ab, wordChar c = true)
    (hrepne : rep ≠ []) (hrepw : ∀ c ∈ rep, wordChar c = true) :
    ∀ (n : Nat) (cs : List Char), cs.length ≤ n →
      ∀ r ∈ words (replaceAbbrPass a ab rep false cs),
        (r ∈ words cs ∧ r ≠ a :: ab) ∨ rep.isPrefixOf r = true := by
  have hallX : ∀ c ∈ a :: ab, wordChar c = true := by
    intro c hc
    rcases List.mem_cons.mp hc with h1 | h1
    · rw [h1]
      exact ha
    · exact hab c h1
  intro n
  induction n with
  | zero =>
    intro cs hlen r hr
    have hnil : cs = [] := List.eq_nil_of_length_eq_zero (Nat.le_zero.mp hlen)
    subst hnil
    rw [pass_nil, words_nil] at hr
    simp at hr
  | succ n ih =>
    intro cs hlen r hr
    cases cs with
    | nil =>
      rw [pass_nil, words_nil] at hr
      simp at hr
    | cons c cs' =>
      cases hm : abbrMatchLen a ab false (c :: cs') with
      | none =>
        rw [replaceAbbrPass, hm] at hr
        simp only [] at hr
        by_cases hc : wordChar c = true
        · rw [hc, pass_true_skip] at hr
          cases hd : cs'.dropWhile wordChar with
          | nil =>
            rw [hd] at hr
            simp only [List.append_nil] at hr
            have hallcs' : cs'.takeWhile wordChar = cs' := by
              have h2 := List.takeWhile_append_dropWhile wordChar cs'
              rw [hd, List.append_nil] at h2
              exact h2
            rw [hallcs'] at hr
            have hall : ∀ x ∈ c :: cs', wordChar x = true := by
              intro x hx
              rcases List.mem_cons.mp hx with h1 | h1
              · rw [h1]
                exact hc
              · rw [← hallcs'] at h1
                exact List.mem_takeWhile_imp h1
            rw [words_allword _ (by simp) hall] at hr
            simp only [List.mem_singleton] at hr
            subst hr
            left
            refine ⟨by rw [words_allword _ (by simp) hall]; simp, ?_⟩
            intro hEq
            exact abbrMatchLen_false_some_of_split a ab _ [] (by rw [hEq, List.append_nil])
              (Or.inl rfl) hm
          | cons c₀ r2 =>
            rw [hd] at hr
            simp only [] at hr
            have hc₀ : wordChar c₀ = false := dropWhile_head_false cs' c₀ r2 hd
            have hfirst :
                words (c :: (cs'.takeWhile wordChar ++ c₀ :: replaceAbbrPass a ab rep false r2)) =
                  (c :: cs'.takeWhile wordChar) :: words (replaceAbbrPass a ab rep false r2) := by
              rw [← List.cons_append,
                words_append_allword _ _ (by simp) ?_]
              · rw [List.takeWhile_cons, hc₀]
                simp only [Bool.false_eq_true, if_false]
                rw [List.dropWhile_cons, hc₀]
                simp only [Bool.false_eq_true, if_false]
                rw [words_cons_nonword hc₀, List.append_nil]
              · intro x hx
                rcases List.mem_cons.mp hx with h1 | h1
                · rw [h1]
                  exact hc
                · exact List.mem_takeWhile_imp h1
            rw [hfirst] at hr
            have hwcs : words (c :: cs') =
                (c :: cs'.takeWhile wordChar) :: words r2 := by
              rw [words_cons_word hc, hd, words_cons_nonword hc₀]
            rcases List.mem_cons.mp hr with h1 | h1
            · left
              constructor
              · rw [hwcs, h1]
                exact List.mem_cons_self _ _
              · subst h1
                intro hEq
                have hsplit : c :: cs' = (a :: ab) ++ (c₀ :: r2) := by
                  rw [← hEq]
                  rw [← hd, List.cons_append, List.takeWhile_append_dropWhile]
                refine abbrMatchLen_false_some_of_split a ab _ (c₀ :: r2) hsplit ?_ hm
                by_cases hdot : c₀ = '.'
                · exact Or.inr ⟨c₀, r2, rfl, Or.inl hdot⟩
                · exact Or.inr ⟨c₀, r2, rfl, Or.inr hc₀⟩
            · have hlen2 : r2.length ≤ n := by
                have hdl := (List.dropWhile_sublist (l := cs') wordChar).length_le
                rw [hd] at hdl
                simp at hlen hdl
                omega
              rcases ih r2 hlen2 r h1 with ⟨hmem, hne⟩ | hpre
              · left
                refine ⟨?_, hne⟩
                rw [hwcs]
                exact List.mem_cons_of_mem _ hmem
              · right
                exact hpre
        · have hc2 := not_wordChar_of_not c hc
          rw [hc2] at hr
          rw [words_cons_nonword hc2] at hr
          have hlen2 : cs'.length ≤ n := by
            simp at hlen
            omega
          rcases ih cs' hlen2 r hr with ⟨hmem, hne⟩ | hpre
          · left
            exact ⟨by rw [words_cons_nonword hc2]; exact hmem, hne⟩
          · right
            exact hpre
      | some j =>
        rw [replaceAbbrPass, hm] at hr
        simp only [] at hr
        obtain ⟨rest, hrest, hcase⟩ := abbrMatchLen_false_some a ab (c :: cs') j hm
        have hcs' : cs' = ab ++ rest := by
          have h3 := congrArg List.tail hrest
          simpa using h3
        have hwcs : words (c :: cs') = (a :: ab) :: words rest ∧
            (rest = [] ∨ ∃ x t, rest = x :: t ∧ wordChar x = false) := by
          rcases hcase with ⟨_, hshape⟩ | ⟨_, d, t, hshape, _⟩
          · refine ⟨?_, hshape⟩
            rw [hrest, words_append_allword _ _ (by simp) hallX]
            rcases hshape with rfl | ⟨x, t, rfl, hx⟩
            · rw [words_nil]
              simp [words_nil]
            · rw [List.takeWhile_cons, hx]
              simp only [Bool.false_eq_true, if_false]
              rw [List.dropWhile_cons, hx]
              simp only [Bool.false_eq_true, if_false]
              rw [words_cons_nonword hx, List.append_nil]
          · subst hshape
            refine ⟨?_, Or.inr ⟨'.', d :: t, rfl, by decide⟩⟩
            rw [hrest, words_append_allword _ _ (by simp) hallX]
            rw [List.takeWhile_cons, (by decide : wordChar '.' = false)]
            simp only [Bool.false_eq_true, if_false]
            rw [List.dropWhile_cons, (by decide : wordChar '.' = false)]
            simp only [Bool.false_eq_true, if_false]
            rw [words_cons_nonword (by decide : wordChar '.' = false), List.append_nil]
        rcases hcase with ⟨hj, hshape⟩ | ⟨hj, d, t, hshape, hd⟩
        · subst hj
          have hdrop : cs'.drop ab.length = rest := by
            rw [hcs']
            exact List.drop_left ab rest
          rw [hdrop, (by simp : (ab.length == ab.length) = true)] at hr
          rcases hshape with rfl | ⟨x, t, rfl, hx⟩
          · rw [pass_nil, List.append_nil, words_allword rep hrepne hrepw] at hr
            simp only [List.mem_singleton] at hr
            subst hr
            right
            exact (isPrefixOf_iff_append0 _ _).mpr ⟨[], by simp⟩
          · have hstep : replaceAbbrPass a ab rep true (x :: t) =
                x :: replaceAbbrPass a ab rep false t := by
              rw [replaceAbbrPass, abbrMatchLen_true]
              simp only []
              rw [hx]
            rw [hstep, words_append_allword rep _ hrepne hrepw] at hr
            rw [List.takeWhile_cons, hx] at hr
            simp only [Bool.false_eq_true, if_false, List.append_nil] at hr
            rw [List.dropWhile_cons, hx] at hr
            simp only [Bool.false_eq_true, if_false] at hr
            rw [words_cons_nonword hx] at hr
            rcases List.mem_cons.mp hr with h1 | h1
            · right
              rw [h1]
              exact (isPrefixOf_iff_append0 _ _).mpr ⟨[], by simp⟩
            · have hlen2 : t.length ≤ n := by
                have : cs'.length = ab.length + (x :: t).length := by
                  rw [hcs']
                  simp
                simp at hlen this
                omega
              rcases ih t hlen2 r h1 with ⟨hmem, hne⟩ | hpre
              · left
                refine ⟨?_, hne⟩
                rw [hwcs.1, words_cons_nonword hx]
                exact List.mem_cons_of_mem _ hmem
              · right
                exact hpre
        · subst hj
          subst hshape
          have hdrop : cs'.drop (ab.length + 1) = d :: t := by
            rw [hcs']
            have hsp : ab ++ '.' :: d :: t = (ab ++ ['.']) ++ d :: t := by
              simp
            rw [hsp]
            have hL : ab.length + 1 = (ab ++ ['.']).length := by
              simp
            rw [hL, List.drop_left]
          rw [hdrop] at hr
          rw [(by rw [beq_eq_false_iff_ne]; omega : ((ab.length + 1) == ab.length) = false)] at hr
          rw [words_append_allword rep _ hrepne hrepw] at hr
          rcases List.mem_cons.mp hr with h1 | h1
          · right
            exact (isPrefixOf_iff_append0 _ _).mpr ⟨_, h1⟩
          · have h2 := words_dropWhile_word_sub _ r h1
            have hlen2 : (d :: t).length ≤ n := by
              have : cs'.length = ab.length + ('.' :: d :: t).length := by
                rw [hcs']
                simp
              simp at hlen this ⊢
              omega
            rcases ih (d :: t) hlen2 r h2 with ⟨hmem, hne⟩ | hpre
            · left
              refine ⟨?_, hne⟩
              rw [hwcs.1, words_cons_nonword (by decide : wordChar '.' = false)]
              exact List.mem_cons_of_mem _ hmem
            · right
              exact hpre

theorem length_le_of_rep_isPrefixOf (rep r : List Char) (h : rep.isPrefixOf r = true) :
    rep.length ≤ r.length := by
  obtain ⟨t, rfl⟩ := (isPrefixOf_iff_append0 rep r).mp h
  simp

theorem pass_avoid_self (a : Char) (ab rep : List Char)
    (ha : wordChar a = true) (hab : ∀ c ∈ ab, wordChar c = true)
    (hrepne : rep ≠ []) (hrepw : ∀ c ∈ rep, wordChar c = true)
    (hlen : ab.length + 1 < rep.length) (cs : List Char) :
    ∀ r ∈ words (replaceAbbrPass a ab rep false cs), r ≠ a :: ab := by
  intro r hr
  rcases words_pass_false a ab rep ha hab hrepne hrepw cs.length cs (le_refl _) r hr with
    ⟨_, hne⟩ | hpre
  · exact hne
  · intro hEq
    have hl := length_le_of_rep_isPrefixOf rep r hpre
    rw [hEq] at hl
    simp at hl
    omega

theorem pass_avoid_preserve (a : Char) (ab rep : List Char)
    (ha : wordChar a = true) (hab : ∀ c ∈ ab, wordChar c = true)
    (hrepne : rep ≠ []) (hrepw : ∀ c ∈ rep, wordChar c = true)
    (Y : List Char) (hY : Y.length < rep.length) (cs : List Char)
    (h : ∀ r ∈ words cs, r ≠ Y) :
    ∀ r ∈ words (replaceAbbrPass a ab rep false cs), r ≠ Y := by
  intro r hr
  rcases words_pass_false a ab rep ha hab hrepne hrepw cs.length cs (le_refl _) r hr with
    ⟨hmem, _⟩ | hpre
  · exact h r hmem
  · intro hEq
    have hl := length_le_of_rep_isPrefixOf rep r hpre
    rw [hEq] at hl
    omega

theorem fold_preserve (Y : List Char) :
    ∀ (l : List ((Char × List Char) × List Char)),
      (∀ p ∈ l, entryOK p ∧ Y.length < p.2.length) →
      ∀ s, (∀ r ∈ words s, r ≠ Y) →
      ∀ r ∈ words (l.foldl (fun s p => replaceAbbrPass p.1.1 p.1.2 p.2 false s) s), r ≠ Y := by
  intro l
  induction l with
  | nil =>
    intro _ s h r hr
    exact h r hr
  | cons p ps ih =>
    intro hcond s h
    rw [List.foldl_cons]
    obtain ⟨⟨h1, h2, h3, h4, _⟩, h6⟩ := hcond p (List.mem_cons_self _ _)
    exact ih (fun q hq => hcond q (List.mem_cons_of_mem _ hq)) _
      (pass_avoid_preserve p.1.1 p.1.2 p.2 h1 h2 h3 h4 Y h6 s h)

theorem fold_avoid :
    ∀ (l : List ((Char × List Char) × List Char)),
      (∀ p ∈ l, entryOK p) →
      (∀ p ∈ l, ∀ q ∈ l, p.1.2.length + 1 < q.2.length) →
      ∀ (s : List Char) (p : (Char × List Char) × List Char), p ∈ l →
      ∀ r ∈ words (l.foldl (fun s p => replaceAbbrPass p.1.1 p.1.2 p.2 false s) s),
        r ≠ p.1.1 :: p.1.2 := by
  intro l
  induction l with
  | nil =>
    intro _ _ s p hp
    simp at hp
  | cons q ps ih =>
    intro hcond hshort s p hp
    rw [List.foldl_cons]
    rcases List.mem_cons.mp hp with h1 | h1
    · subst h1
      obtain ⟨hq1, hq2, hq3, hq4, hq5⟩ := hcond p (List.mem_cons_self _ _)
      apply fold_preserve (p.1.1 :: p.1.2) ps ?_ _
        (pass_avoid_self p.1.1 p.1.2 p.2 hq1 hq2 hq3 hq4 hq5 s)
      intro w hw
      refine ⟨hcond w (List.mem_cons_of_mem _ hw), ?_⟩
      have h2 := hshort p (List.mem_cons_self _ _) w (List.mem_cons_of_mem _ hw)
      simp only [List.length_cons]
      omega
    · exact ih (fun w hw => hcond w (List.mem_cons_of_mem _ hw))
        (fun w hw v hv => hshort w (List.mem_cons_of_mem _ hw) v (List.mem_cons_of_mem _ hv))
        _ p h1

theorem fold_id :
    ∀ (l : List ((Char × List Char) × List Char)) (s : List Char),
      (∀ p ∈ l, wordChar p.1.1 = true ∧ (∀ c ∈ p.1.2, wordChar c = true) ∧
        (∀ r ∈ words s, r ≠ p.1.1 :: p.1.2)) →
      l.foldl (fun s p => replaceAbbrPass p.1.1 p.1.2 p.2 false s) s = s := by
  intro l
  induction l with
  | nil => intro s _; rfl
  | cons p ps ih =>
    intro s hcond
    obtain ⟨h1, h2, h3⟩ := hcond p (List.mem_cons_self _ _)
    rw [List.foldl_cons,
      pass_id_of_avoid p.1.1 p.1.2 p.2 h1 h2 s.length s false (le_refl _) (by
        simp only [Bool.false_eq_true, if_false]
        exact h3)]
    exact ih s (fun q hq => hcond q (List.mem_cons_of_mem _ hq))

theorem distFold_miss (hv : ℚ → ℚ → ℚ → ℚ → ℚ) (origin : Coords) :
    ∀ (list : List EventWithLocation) (m : String → Option JsNum) (k : String),
      (∀ e ∈ list, e.id ≠ k) →
      (list.foldl (fun m e => fun q => if q = e.id then some (eventDist hv origin e) else m q) m) k
        = m k := by
  intro list
  induction list with
  | nil => intro m k _; rfl
  | cons x xs ih =>
    intro m k h
    rw [List.foldl_cons, ih _ _ (fun e he => h e (List.mem_cons_of_mem _ he))]
    show (if k = x.id then some (eventDist hv origin x) else m k) = m k
    rw [if_neg]
    intro hk
    exact h x (List.mem_cons_self _ _) hk.symm

theorem distFold_hit (hv : ℚ → ℚ → ℚ → ℚ → ℚ) (origin : Coords) :
    ∀ (list : List EventWithLocation) (m : String → Option JsNum) (e : EventWithLocation),
      (list.map EventWithLocation.id).Nodup → e ∈ list →
      (list.foldl (fun m e => fun q => if q = e.id then some (eventDist hv origin e) else m q) m) e.id
        = some (eventDist hv origin e) := by
  intro list
  induction list with
  | nil =>
    intro m e _ he
    simp at he
  | cons x xs ih =>
    intro m e hnd he
    rw [List.map_cons] at hnd
    have hnd1 := List.nodup_cons.mp hnd
    rw [List.foldl_cons]
    rcases List.mem_cons.mp he with h1 | h1
    · subst h1
      have hmiss : ∀ f ∈ xs, f.id ≠ e.id := by
        intro f hf heq
        exact hnd1.1 (heq ▸ List.mem_map_of_mem EventWithLocation.id hf)
      rw [distFold_miss hv origin xs _ _ hmiss]
      simp
    · exact ih _ _ hnd1.2 h1

theorem dget_eq_eventDist (hv : ℚ → ℚ → ℚ → ℚ → ℚ) (origin : Coords)
    (list : List EventWithLocation) (e : EventWithLocation)
    (hnd : (list.map EventWithLocation.id).Nodup) (he : e ∈ list) :
    dget hv origin list e = eventDist hv origin e := by
  unfold dget buildDistMap
  rw [distFold_hit hv origin list _ e hnd he]
  rfl

theorem nodup_ids_dateFiltered (events : List EventWithLocation) (dateFilter : String)
    (h : (events.map EventWithLocation.id).Nodup) :
    ((dateFilteredEvents events dateFilter).map EventWithLocation.id).Nodup := by
  unfold dateFilteredEvents
  split
  · exact List.Nodup.sublist ((List.filter_sublist _).map _) h
  · exact h

theorem cmpLE_trans :
    ∀ a b c : JsNum, cmpLE a b = true → cmpLE b c = true → cmpLE a c = true := by
  intro a b c
  cases a <;> cases b <;> cases c <;> simp [cmpLE]
  exact fun h1 h2 => le_trans h1 h2

theorem cmpLE_total : ∀ a b : JsNum, cmpLE a b || cmpLE b a := by
  intro a b
  cases a <;> cases b <;> simp [cmpLE]
  exact le_total _ _

theorem cmpLE_refl : ∀ a : JsNum, cmpLE a a = true := by
  intro a
  cases a <;> simp [cmpLE]

theorem replaceAbbrPassF_eq (a : Char) (ab rep : List Char) :
    ∀ (fuel : Nat) (prev : Bool) (cs : List Char), cs.length ≤ fuel →
      replaceAbbrPassF a ab rep fuel prev cs = replaceAbbrPass a ab rep prev cs := by
  intro fuel
  induction fuel with
  | zero =>
    intro prev cs h
    have hnil : cs = [] := List.eq_nil_of_length_eq_zero (Nat.le_zero.mp h)
    subst hnil
    simp [replaceAbbrPassF, replaceAbbrPass]
  | succ fuel ih =>
    intro prev cs h
    cases cs with
    | nil => simp [replaceAbbrPassF, replaceAbbrPass]
    | cons c cs =>
      rw [replaceAbbrPass]
      simp only [replaceAbbrPassF]
      cases hm : abbrMatchLen a ab prev (c :: cs) with
      | some j =>
        simp only []
        have hlen : (cs.drop j).length ≤ fuel := by
          have := cs.length_drop j
          simp at h
          omega
        rw [ih _ _ hlen]
      | none =>
        simp only []
        have hlen : cs.length ≤ fuel := by
          simp at h
          omega
        rw [ih _ _ hlen]

theorem collapseWsF_eq :
    ∀ (fuel : Nat) (cs : List Char), cs.length ≤ fuel →
      collapseWsF fuel cs = collapseWs cs := by
  intro fuel
  induction fuel with
  | zero =>
    intro cs h
    have hnil : cs = [] := List.eq_nil_of_length_eq_zero (Nat.le_zero.mp h)
    subst hnil
    simp [collapseWsF, collapseWs]
  | succ fuel ih =>
    intro cs h
    cases cs with
    | nil => simp [collapseWsF, collapseWs]
    | cons c cs =>
      rw [collapseWs]
      simp only [collapseWsF]
      by_cases hc : wsChar c
      · have hlen : (cs.dropWhile wsChar).length ≤ fuel := by
          have := (List.dropWhile_sublist (l := cs) wsChar).length_le
          simp at h
          omega
        simp [hc, ih _ hlen]
      · have hlen : cs.length ≤ fuel := by
          simp at h
          omega
        simp [hc, ih _ hlen]

theorem normalizeCityName_eq_impl (name : String) :
    normalizeCityName name = normalizeCityNameI name := by
  unfold normalizeCityName normalizeCityNameI
  by_cases h : name = ""
  · simp [h]
  · simp only [h, if_false]
    have hstep : ∀ (s : List Char) (p : (Char × List Char) × List Char),
        replaceAbbrPassF p.1.1 p.1.2 p.2 s.length false s =
          replaceAbbrPass p.1.1 p.1.2 p.2 false s :=
      fun s p => replaceAbbrPassF_eq _ _ _ _ _ _ (le_refl _)
    have hfold : ∀ (l : List ((Char × List Char) × List Char)) (s : List Char),
        l.foldl (fun s p => replaceAbbrPassF p.1.1 p.1.2 p.2 s.length false s) s =
          l.foldl (fun s p => replaceAbbrPass p.1.1 p.1.2 p.2 false s) s := by
      intro l
      induction l with
      | nil => intro s; rfl
      | cons p ps ih =>
        intro s
        simp only [List.foldl_cons, hstep, ih]
    rw [hfold, collapseWsF_eq _ _ (le_refl _)]

theorem not_getD_false_iff (o : Option Bool) : (!(o.getD false)) = true ↔ ¬ o = some true := by
  cases o with
  | none => simp
  | some b => cases b <;> simp

theorem getD_false_eq_false_iff (o : Option Bool) : o.getD false = false ↔ ¬ o = some true := by
  cases o with
  | none => simp
  | some b => cases b <;> simp

theorem filteredAndSortedEvents_none_radius (hv : ℚ → ℚ → ℚ → ℚ → ℚ)
    (events : List EventWithLocation) (dateFilter : String) (origin : Coords) :
    filteredAndSortedEvents hv events dateFilter (some origin) none =
      (dateFilteredEvents events dateFilter).mergeSort
        (fun a b => cmpLE (dget hv origin (dateFilteredEvents events dateFilter) a)
          (dget hv origin (dateFilteredEvents events dateFilter) b)) := rfl

theorem filteredAndSortedEvents_some_radius (hv : ℚ → ℚ → ℚ → ℚ → ℚ)
    (events : List EventWithLocation) (dateFilter : String) (origin : Coords) (n : ℤ) :
    filteredAndSortedEvents hv events dateFilter (some origin) (some n) =
      if 0 < n then
        ((dateFilteredEvents events dateFilter).mergeSort
          (fun a b => cmpLE (dget hv origin (dateFilteredEvents events dateFilter) a)
            (dget hv origin (dateFilteredEvents events dateFilter) b))).filter
          (fun e => radiusLE (dget hv origin (dateFilteredEvents events dateFilter) e) n)
      else
        (dateFilteredEvents events dateFilter).mergeSort
          (fun a b => cmpLE (dget hv origin (dateFilteredEvents events dateFilter) a)
            (dget hv origin (dateFilteredEvents events dateFilter) b)) := rfl

/-- The stable sort of the engine is sorted with respect to the computed
per-event distance, provided the ids are distinct (so each map lookup
returns the event's own distance). -/
theorem engineSorted_pairwise (hv : ℚ → ℚ → ℚ → ℚ → ℚ) (origin : Coords)
    (L : List EventWithLocation) (hnd : (L.map EventWithLocation.id).Nodup) :
    (L.mergeSort (fun a b => cmpLE (dget hv origin L a) (dget hv origin L b))).Pairwise
      (fun a b => cmpLE (eventDist hv origin a) (eventDist hv origin b) = true) := by
  have hsorted :=
    @List.sorted_mergeSort EventWithLocation
      (fun a b => cmpLE (dget hv origin L a) (dget hv origin L b))
      (fun a b c h1 h2 => cmpLE_trans _ _ _ h1 h2)
      (fun a b => cmpLE_total _ _) L
  refine List.Pairwise.imp_of_mem ?_ hsorted
  intro a b ha hb hr
  rwa [dget_eq_eventDist hv origin L a hnd (List.mem_mergeSort.mp ha),
    dget_eq_eventDist hv origin L b hnd (List.mem_mergeSort.mp hb)] at hr

/-- Stability of the engine sort: for each distance value `v`, the
elements of the sorted list at distance `v` are exactly the elements of
the input at distance `v`, in their original order. -/
theorem engineSorted_filter_class_eq (hv : ℚ → ℚ → ℚ → ℚ → ℚ) (origin : Coords)
    (L : List EventWithLocation) (hnd : (L.map EventWithLocation.id).Nodup) (v : JsNum) :
    (L.mergeSort (fun a b => cmpLE (dget hv origin L a) (dget hv origin L b))).filter
        (fun e => decide (eventDist hv origin e = v)) =
      L.filter (fun e => decide (eventDist hv origin e = v)) := by
  have hpw : (L.filter (fun e => decide (eventDist hv origin e = v))).Pairwise
      (fun a b => (cmpLE (dget hv origin L a) (dget hv origin L b)) = true) := by
    apply List.pairwise_of_forall_mem_list
    intro a ha b hb
    have ha1 := List.mem_filter.mp ha
    have hb1 := List.mem_filter.mp hb
    rw [dget_eq_eventDist hv origin L a hnd ha1.1, dget_eq_eventDist hv origin L b hnd hb1.1,
      of_decide_eq_true ha1.2, of_decide_eq_true hb1.2]
    exact cmpLE_refl v
  have hsub : List.Sublist (L.filter (fun e => decide (eventDist hv origin e = v)))
      (L.mergeSort (fun a b => cmpLE (dget hv origin L a) (dget hv origin L b))) :=
    @List.sublist_mergeSort EventWithLocation
      (fun a b => cmpLE (dget hv origin L a) (dget hv origin L b)) L
      (fun a b c h1 h2 => cmpLE_trans _ _ _ h1 h2)
      (fun a b => cmpLE_total _ _) _ hpw (List.filter_sublist L)
  have hself : (L.filter (fun e => decide (eventDist hv origin e = v))).filter
      (fun e => decide (eventDist hv origin e = v)) =
      L.filter (fun e => decide (eventDist hv origin e = v)) :=
    List.filter_eq_self.mpr fun a ha => (List.mem_filter.mp ha).2
  have hsub2 : List.Sublist (L.filter (fun e => decide (eventDist hv origin e = v)))
      ((L.mergeSort (fun a b => cmpLE (dget hv origin L a) (dget hv origin L b))).filter
        (fun e => decide (eventDist hv origin e = v))) := by
    rw [← hself]
    exact hsub.filter _
  have hlen : ((L.mergeSort (fun a b => cmpLE (dget hv origin L a) (dget hv origin L b))).filter
      (fun e => decide (eventDist hv origin e = v))).length =
      (L.filter (fun e => decide (eventDist hv origin e = v))).length :=
    ((List.mergeSort_perm L _).filter _).length_eq
  exact (hsub2.eq_of_length hlen.symm).symm

theorem cmpLE_inf_left {x y : JsNum} (h : cmpLE x y = true) (hx : x = JsNum.inf) :
    y = JsNum.inf := by
  subst hx
  cases y with
  | fin q => simp [cmpLE] at h
  | inf => rfl

theorem normalizeCityName_eq (name : String) (h0 : ¬ name = "") :
    normalizeCityName name =
      String.mk (jsTrim (collapseWs (abbrevTable.foldl
        (fun s p => replaceAbbrPass p.1.1 p.1.2 p.2 false s)
        ((jsTrim name.toList).map Char.toLower)))) := by
  rw [normalizeCityName, if_neg h0]

/-! ## C10: normalizeCityName is idempotent -/

/-- C10: `normalizeCityName` is idempotent: a second application changes
nothing.  The output's word-character runs avoid all seven abbreviations
(each pass removes its own whole-word occurrences and every replacement is
a longer word than every abbreviation, so no pass can recreate one), hence
every pass of the second run is the identity; the output is also
trim-fixed, lowercase-fixed and whitespace-collapsed. -/
theorem normalizeCityName_idempotent :
    ∀ name : String, normalizeCityName (normalizeCityName name) = normalizeCityName name := by
  intro name
  by_cases h0 : name = ""
  · rw [h0]
    decide
  · have hcond : ∀ p ∈ abbrevTable, entryOK p := by
      unfold entryOK
      decide
    have hshort : ∀ p ∈ abbrevTable, ∀ q ∈ abbrevTable, p.1.2.length + 1 < q.2.length := by
      decide
    rw [normalizeCityName_eq name h0]
    set s0 := (jsTrim name.toList).map Char.toLower with hs0
    set s1 := abbrevTable.foldl (fun s p => replaceAbbrPass p.1.1 p.1.2 p.2 false s) s0 with hs1
    set out := jsTrim (collapseWs s1) with houtdef
    have hwout : words out = words s1 := by
      rw [houtdef, words_jsTrim, words_collapse s1.length s1 (le_refl _)]
    have havoid : ∀ p ∈ abbrevTable, ∀ r ∈ words out, r ≠ p.1.1 :: p.1.2 := by
      intro p hp r hr
      rw [hwout, hs1] at hr
      exact fold_avoid abbrevTable hcond hshort s0 p hp r hr
    have hmemout : ∀ c ∈ out, (c ∈ s1 ∧ wsChar c = false) ∨ c = ' ' := by
      intro c hc
      rw [houtdef] at hc
      exact mem_collapse s1.length s1 (le_refl _) c (mem_jsTrim _ c hc)
    by_cases hOut : out = []
    · rw [hOut]
      decide
    · have hne : ¬ String.mk out = "" := by
        intro hc
        apply hOut
        simpa using congrArg String.data hc
      rw [normalizeCityName_eq _ hne]
      have htl : (String.mk out).toList = out := rfl
      rw [htl]
      have htrim : jsTrim out = out := by
        rw [houtdef]
        exact jsTrim_idem _
      rw [htrim]
      have hlower : out.map Char.toLower = out := by
        have hfix : ∀ c ∈ out, Char.toLower c = c := by
          intro c hc
          rcases hmemout c hc with ⟨hc3, _⟩ | hsp
          · rw [hs1] at hc3
            rcases mem_passes_fold abbrevTable s0 c hc3 with hc4 | ⟨p, hp, hcp⟩
            · rw [hs0] at hc4
              obtain ⟨c₀, _, rfl⟩ := List.mem_map.mp hc4
              exact toLower_eq_self _ (toLower_not_upper c₀)
            · have hreps : ∀ p ∈ abbrevTable, ∀ c ∈ p.2, Char.toLower c = c := by
                decide
              exact hreps p hp c hcp
          · rw [hsp]
            decide
        calc out.map Char.toLower = out.map id := List.map_congr_left hfix
          _ = out := List.map_id out
      rw [hlower]
      have hpassid : abbrevTable.foldl
          (fun s p => replaceAbbrPass p.1.1 p.1.2 p.2 false s) out = out := by
        apply fold_id
        intro p hp
        obtain ⟨h1, h2, _, _, _⟩ := hcond p hp
        exact ⟨h1, h2, havoid p hp⟩
      rw [hpassid]
      have hcoll : collapseWs out = out := by
        apply collapse_eq_self
        · intro c hc hwsc
          rcases hmemout c hc with ⟨_, hnws⟩ | hsp
          · rw [hwsc] at hnws
            exact absurd hnws (by simp)
          · exact hsp
        · rw [houtdef]
          exact chain_jsTrim _ (chain_collapse s1.length s1 (le_refl _))
      rw [hcoll, htrim]

/-! ## C1: the radius filter keeps exactly the in-range events -/

/-- C1 counterexample: the claim as stated — for EVERY event list, the
radius-filtered output holds exactly the date-filtered events whose
computed distance is at most the radius — is false: with two distinct
events sharing one id (a near event with coordinates and a no-coordinate
event), the distance map entry for the shared id is overwritten with the
`Infinity` sentinel, so the near event is dropped although its computed
distance (5) is within the radius (10). -/
theorem radiusFilter_duplicate_id_counterexample :
    ¬ (∀ (hv : ℚ → ℚ → ℚ → ℚ → ℚ) (events : List EventWithLocation)
        (dateFilter : String) (origin : Coords) (n : ℤ), 0 < n →
        ∀ e, e ∈ filteredAndSortedEvents hv events dateFilter (some origin) (some n) ↔
          (e ∈ dateFilteredEvents events dateFilter ∧
            radiusLE (eventDist hv origin e) n = true)) := by
  intro hcl
  have hout : filteredAndSortedEvents hvLat [evNear, evDupNoCoords] "" (some ⟨0, 0⟩) (some 10)
      = [] := by
    unfold filteredAndSortedEvents
    dsimp only
    rw [if_pos (by decide : (0 : ℤ) < 10)]
    rw [List.mergeSort_of_sorted (by decide)]
    decide
  have h := (hcl hvLat [evNear, evDupNoCoords] "" ⟨0, 0⟩ 10 (by decide) evNear).mpr
    ⟨by decide, by decide⟩
  rw [hout] at h
  simp at h

/-- C1 (amended): whenever the event ids are pairwise distinct — as the
database primary keys are — the origin resolved and a radius `n > 0` is
set, the output holds exactly the date-filtered events whose computed
distance is at most `n`; `radiusLE` is false on the `Infinity` sentinel,
so every event without stored coordinates is excluded. -/
theorem radiusFilter_members_iff :
    ∀ (hv : ℚ → ℚ → ℚ → ℚ → ℚ) (events : List EventWithLocation)
      (dateFilter : String) (origin : Coords) (n : ℤ),
      (events.map EventWithLocation.id).Nodup → 0 < n →
      ∀ e, e ∈ filteredAndSortedEvents hv events dateFilter (some origin) (some n) ↔
        (e ∈ dateFilteredEvents events dateFilter ∧
          radiusLE (eventDist hv origin e) n = true) := by
  intro hv events dateFilter origin n hnodup hn e
  have hnd1 := nodup_ids_dateFiltered events dateFilter hnodup
  unfold filteredAndSortedEvents
  simp only [hn, if_pos]
  rw [List.mem_filter, List.mem_mergeSort]
  constructor
  · rintro ⟨hm, hp⟩
    refine ⟨hm, ?_⟩
    rwa [dget_eq_eventDist hv origin _ e hnd1 hm] at hp
  · rintro ⟨hm, hp⟩
    refine ⟨hm, ?_⟩
    rwa [dget_eq_eventDist hv origin _ e hnd1 hm]

/-- Witness for `radiusFilter_members_iff` at a concrete two-event list
with distinct ids, radius 10 and origin (0,0). -/
theorem radiusFilter_members_iff_witness :
    evNear ∈ filteredAndSortedEvents hvLat [evNear, evFar] "" (some ⟨0, 0⟩) (some 10) ↔
      (evNear ∈ dateFilteredEvents [evNear, evFar] "" ∧
        radiusLE (eventDist hvLat ⟨0, 0⟩ evNear) 10 = true) :=
  radiusFilter_members_iff hvLat [evNear, evFar] "" ⟨0, 0⟩ 10 (by decide) (by decide) evNear

/-! ## C2: sorted ascending by distance, stable, no-coordinate events last -/

/-- C2 counterexample: the claim as stated — for EVERY event list the
output is ascending in the computed distance — is false: with two distinct
events sharing one id (one with coordinates at distance 5, one without),
the shared map entry ends as the `Infinity` sentinel, so the distance-5
event sorts as `Infinity` and stays behind a distance-50 event. -/
theorem distanceSort_duplicate_id_counterexample :
    ¬ (∀ (hv : ℚ → ℚ → ℚ → ℚ → ℚ) (events : List EventWithLocation)
        (dateFilter : String) (origin : Coords) (r : Option ℤ),
        List.Pairwise (fun a b => cmpLE (eventDist hv origin a) (eventDist hv origin b) = true)
          (filteredAndSortedEvents hv events dateFilter (some origin) r)) := by
  intro hcl
  have hout : filteredAndSortedEvents hvLat [evFar, evNear, evDupNoCoords] "" (some ⟨0, 0⟩) none
      = [evFar, evNear, evDupNoCoords] := by
    rw [filteredAndSortedEvents_none_radius]
    rw [List.mergeSort_of_sorted (by decide)]
    decide
  have h := hcl hvLat [evFar, evNear, evDupNoCoords] "" ⟨0, 0⟩ none
  rw [hout] at h
  exact absurd h (by decide)

/-- C2 (amended): whenever the event ids are pairwise distinct and the
origin resolved, for every radius setting the output is sorted ascending
by the computed distance (with the `Infinity` sentinel greatest); the sort
is stable — each distance class of the output is a sublist of the
date-filtered input's distance class, i.e. ties keep their original
relative order; every event without stored coordinates (distance
`Infinity`) is placed after all finite-distance events; and with no radius
set the output is a permutation of the date-filtered list. -/
theorem distanceSort_sorted_stable :
    ∀ (hv : ℚ → ℚ → ℚ → ℚ → ℚ) (events : List EventWithLocation)
      (dateFilter : String) (origin : Coords) (r : Option ℤ),
      (events.map EventWithLocation.id).Nodup →
      List.Pairwise (fun a b => cmpLE (eventDist hv origin a) (eventDist hv origin b) = true)
        (filteredAndSortedEvents hv events dateFilter (some origin) r) ∧
      (∀ v : JsNum,
        List.Sublist
          ((filteredAndSortedEvents hv events dateFilter (some origin) r).filter
            (fun e => decide (eventDist hv origin e = v)))
          ((dateFilteredEvents events dateFilter).filter
            (fun e => decide (eventDist hv origin e = v)))) ∧
      List.Pairwise
        (fun a b => eventDist hv origin a = JsNum.inf → eventDist hv origin b = JsNum.inf)
        (filteredAndSortedEvents hv events dateFilter (some origin) r) ∧
      List.Perm (filteredAndSortedEvents hv events dateFilter (some origin) none)
        (dateFilteredEvents events dateFilter) := by
  intro hv events dateFilter origin r hnodup
  have hnd1 := nodup_ids_dateFiltered events dateFilter hnodup
  have hperm : List.Perm (filteredAndSortedEvents hv events dateFilter (some origin) none)
      (dateFilteredEvents events dateFilter) := by
    rw [filteredAndSortedEvents_none_radius]
    exact List.mergeSort_perm _ _
  have hsubS : List.Sublist (filteredAndSortedEvents hv events dateFilter (some origin) r)
      ((dateFilteredEvents events dateFilter).mergeSort
        (fun a b => cmpLE (dget hv origin (dateFilteredEvents events dateFilter) a)
          (dget hv origin (dateFilteredEvents events dateFilter) b))) := by
    cases r with
    | none =>
      rw [filteredAndSortedEvents_none_radius]
    | some n =>
      rw [filteredAndSortedEvents_some_radius]
      split
      · exact List.filter_sublist _
      · exact List.Sublist.refl _
  have hpw : List.Pairwise
      (fun a b => cmpLE (eventDist hv origin a) (eventDist hv origin b) = true)
      (filteredAndSortedEvents hv events dateFilter (some origin) r) :=
    List.Pairwise.sublist hsubS (engineSorted_pairwise hv origin _ hnd1)
  refine ⟨hpw, ?_, ?_, hperm⟩
  · intro v
    have h1 := hsubS.filter (fun e => decide (eventDist hv origin e = v))
    rwa [engineSorted_filter_class_eq hv origin _ hnd1 v] at h1
  · exact hpw.imp (fun hr hx => cmpLE_inf_left hr hx)

/-- Witness for `distanceSort_sorted_stable` at a concrete two-event list
with distinct ids, origin (0,0) and no radius. -/
theorem distanceSort_sorted_stable_witness :
    List.Pairwise
      (fun a b => cmpLE (eventDist hvLat ⟨0, 0⟩ a) (eventDist hvLat ⟨0, 0⟩ b) = true)
      (filteredAndSortedEvents hvLat [evFar, evNear] "" (some ⟨0, 0⟩) none) ∧
    (∀ v : JsNum,
      List.Sublist
        ((filteredAndSortedEvents hvLat [evFar, evNear] "" (some ⟨0, 0⟩) none).filter
          (fun e => decide (eventDist hvLat ⟨0, 0⟩ e = v)))
        ((dateFilteredEvents [evFar, evNear] "").filter
          (fun e => decide (eventDist hvLat ⟨0, 0⟩ e = v)))) ∧
    List.Pairwise
      (fun a b => eventDist hvLat ⟨0, 0⟩ a = JsNum.inf → eventDist hvLat ⟨0, 0⟩ b = JsNum.inf)
      (filteredAndSortedEvents hvLat [evFar, evNear] "" (some ⟨0, 0⟩) none) ∧
    List.Perm (filteredAndSortedEvents hvLat [evFar, evNear] "" (some ⟨0, 0⟩) none)
      (dateFilteredEvents [evFar, evNear] "") :=
  distanceSort_sorted_stable hvLat [evFar, evNear] "" ⟨0, 0⟩ none (by decide)

/-! ## C5: normalization of the three St. Louis spellings -/

/-- C5: the three inputs do NOT all normalize to one string: the code
leaves the period behind for "St. Louis" (the regex `\bst\.?\b` cannot
keep the greedy dot, because between the dot and the following space there
is no word boundary, so it backtracks and consumes only "st"), producing
"saint. louis", while the other two spellings produce "saint louis". -/
theorem normalizeCityName_st_louis_divergence :
    normalizeCityName "St. Louis" = "saint. louis" ∧
    normalizeCityName "Saint Louis" = "saint louis" ∧
    normalizeCityName "st louis" = "saint louis" ∧
    normalizeCityName "St. Louis" ≠ normalizeCityName "Saint Louis" := by
  refine ⟨?_, ?_, ?_, ?_⟩ <;> simp only [normalizeCityName_eq_impl] <;> decide

/-! ## C3: the radius control has no effect when no origin resolved -/

/-- C3: for every event list and every pair of radius settings, when the
origin did not resolve (`originCoords = none`) the engine returns the same
output for both settings, namely the date-filtered input list, which keeps
the original relative order (it is a sublist of the input). -/
theorem radius_no_effect_without_origin :
    ∀ (hv : ℚ → ℚ → ℚ → ℚ → ℚ) (events : List EventWithLocation)
      (dateFilter : String) (r1 r2 : Option ℤ),
      filteredAndSortedEvents hv events dateFilter none r1 =
        filteredAndSortedEvents hv events dateFilter none r2 ∧
      filteredAndSortedEvents hv events dateFilter none r1 =
        dateFilteredEvents events dateFilter ∧
      List.Sublist (dateFilteredEvents events dateFilter) events := by
  intro hv events dateFilter r1 r2
  refine ⟨rfl, rfl, ?_⟩
  unfold dateFilteredEvents
  split
  · exact List.filter_sublist _
  · exact List.Sublist.refl _

/-! ## C4: haversine symmetry and vanishing at identical points -/

/-- C4: `haversineMiles` is symmetric in its two points, and is zero for a
pair of identical points (exactly, in the real-number model of the
floating-point code). -/
theorem haversine_symm_and_zero :
    (∀ lat1 lng1 lat2 lng2 : ℝ,
      haversineMiles lat1 lng1 lat2 lng2 = haversineMiles lat2 lng2 lat1 lng1) ∧
    (∀ lat lng : ℝ, haversineMiles lat lng lat lng = 0) := by
  constructor
  · intro lat1 lng1 lat2 lng2
    simp only [haversineMiles]
    have hs : ∀ x y : ℝ,
        Real.sin ((x - y) * Real.pi / 180 / 2) * Real.sin ((x - y) * Real.pi / 180 / 2) =
        Real.sin ((y - x) * Real.pi / 180 / 2) * Real.sin ((y - x) * Real.pi / 180 / 2) := by
      intro x y
      have h : (x - y) * Real.pi / 180 / 2 = -((y - x) * Real.pi / 180 / 2) := by ring
      rw [h, Real.sin_neg]
      ring
    have hs2 : ∀ x y c : ℝ,
        c * Real.sin ((x - y) * Real.pi / 180 / 2) * Real.sin ((x - y) * Real.pi / 180 / 2) =
        c * Real.sin ((y - x) * Real.pi / 180 / 2) * Real.sin ((y - x) * Real.pi / 180 / 2) := by
      intro x y c
      have h : (x - y) * Real.pi / 180 / 2 = -((y - x) * Real.pi / 180 / 2) := by ring
      rw [h, Real.sin_neg]
      ring
    rw [hs lat2 lat1,
      mul_comm (Real.cos (lat1 * Real.pi / 180)) (Real.cos (lat2 * Real.pi / 180)),
      hs2 lng2 lng1]
  · intro lat lng
    have h1 : ((⟨1, 0⟩ : ℂ)) = 1 := by
      apply Complex.ext <;> simp
    simp [haversineMiles, jsAtan2, sub_self, Real.sin_zero, Real.sqrt_zero,
      Real.sqrt_one, h1, Complex.arg_one]

/-! ## C6: citiesMatch is bidirectional substring containment -/

theorem isPrefixOf_iff_append :
    ∀ (s t : List Char), s.isPrefixOf t = true ↔ ∃ r, t = s ++ r := by
  intro s
  induction s with
  | nil =>
    intro t
    simp [List.isPrefixOf]
  | cons a as ih =>
    intro t
    cases t with
    | nil => simp [List.isPrefixOf]
    | cons b bs =>
      simp [List.isPrefixOf, ih bs, eq_comm (a := b) (b := a)]

theorem strIncludes_iff (hay sub : List Char) :
    strIncludes hay sub = true ↔ ∃ l r, hay = l ++ sub ++ r := by
  unfold strIncludes
  simp only [List.any_eq_true, List.mem_range, isPrefixOf_iff_append]
  constructor
  · rintro ⟨i, hi, r, hr⟩
    refine ⟨hay.take i, r, ?_⟩
    conv_lhs => rw [← List.take_append_drop i hay]
    rw [hr, List.append_assoc]
  · rintro ⟨l, r, rfl⟩
    refine ⟨l.length, ?_, r, ?_⟩
    · simp
      omega
    · rw [List.append_assoc, List.drop_left]

/-- C6: `citiesMatch a b` is true exactly when both names normalize to
non-empty strings and one normalized name occurs as a contiguous substring
of the other; in particular the "Saint Louis"/"Louis" and
"Kansas City"/"Jefferson City" examples. -/
theorem citiesMatch_spec :
    (∀ a b : String, citiesMatch a b = true ↔
      (normalizeCityName a ≠ "" ∧ normalizeCityName b ≠ "" ∧
        ((∃ l r, (normalizeCityName a).toList = l ++ (normalizeCityName b).toList ++ r) ∨
         (∃ l r, (normalizeCityName b).toList = l ++ (normalizeCityName a).toList ++ r)))) ∧
    citiesMatch "Saint Louis" "Louis" = true ∧
    citiesMatch "Kansas City" "Jefferson City" = false := by
  refine ⟨?_, ?_, ?_⟩
  · intro a b
    unfold citiesMatch
    by_cases ha : normalizeCityName a = "" <;> by_cases hb : normalizeCityName b = "" <;>
      simp [ha, hb, strIncludes_iff]
  · show citiesMatch "Saint Louis" "Louis" = true
    unfold citiesMatch
    simp only [normalizeCityName_eq_impl]
    decide
  · show citiesMatch "Kansas City" "Jefferson City" = false
    unfold citiesMatch
    simp only [normalizeCityName_eq_impl]
    decide

/-! ## C7: estimated wait time is the max positive prep time, absent if none -/

theorem jsMathMax_cons (t y : ℚ) (ys : List ℚ) :
    jsMathMax t (y :: ys) = jsMathMax (max t y) ys := rfl

theorem jsMathMax_mem (t : ℚ) (ts : List ℚ) : jsMathMax t ts ∈ t :: ts := by
  induction ts generalizing t with
  | nil => simp [jsMathMax]
  | cons y ys ih =>
    rw [jsMathMax_cons]
    have h := ih (max t y)
    rcases List.mem_cons.mp h with h1 | h1
    · rw [h1]
      rcases max_choice t y with hm | hm <;> rw [hm] <;> simp
    · simp [h1]

theorem jsMathMax_ge (t : ℚ) (ts : List ℚ) : ∀ x ∈ t :: ts, x ≤ jsMathMax t ts := by
  induction ts generalizing t with
  | nil =>
    intro x hx
    simp at hx
    simp [jsMathMax, hx]
  | cons y ys ih =>
    intro x hx
    rw [jsMathMax_cons]
    rcases List.mem_cons.mp hx with h1 | h1
    · rw [h1]
      exact le_trans (le_max_left t y) (ih (max t y) _ (List.mem_cons_self _ _))
    · rcases List.mem_cons.mp h1 with h2 | h2
      · rw [h2]
        exact le_trans (le_max_right t y) (ih (max t y) _ (List.mem_cons_self _ _))
      · exact ih (max t y) x (List.mem_cons_of_mem _ h2)

theorem prepFilter_eq_some_iff (o : Option ℚ) (m : ℚ) :
    (match o with
     | some p => if 0 < p then some p else none
     | none => none) = some m ↔ o = some m ∧ 0 < m := by
  cases o with
  | none => simp
  | some p =>
    by_cases hp : 0 < p
    · simp [hp]
      rintro rfl
      exact hp
    · simp [hp]
      rintro rfl
      exact le_of_not_lt hp

theorem mem_prepTimes_iff (items : List MenuItem) (m : ℚ) :
    m ∈ prepTimes items ↔
      ∃ item ∈ items, item.prep_time_minutes = some m ∧ 0 < m := by
  simp [prepTimes, List.mem_filterMap, prepFilter_eq_some_iff]

/-- C7: for any selection of available items with positive quantities, the
estimated wait is absent exactly when no selected item has a set, strictly
positive prep time; and it equals `some w` exactly when `w` is one of the
selected items' positive prep times and is an upper bound of all of them. -/
theorem estimatedWait_spec :
    ∀ (menu : List MenuItem) (ot : OrderType) (qty : String → Nat),
      (estimatedWaitMinutes menu ot qty = none ↔
        ∀ item ∈ selectedItems menu ot qty,
          ¬ ∃ m : ℚ, item.prep_time_minutes = some m ∧ 0 < m) ∧
      (∀ w : ℚ, estimatedWaitMinutes menu ot qty = some w ↔
        ((∃ item ∈ selectedItems menu ot qty,
            item.prep_time_minutes = some w ∧ 0 < w) ∧
         (∀ item ∈ selectedItems menu ot qty, ∀ m : ℚ,
            item.prep_time_minutes = some m → 0 < m → m ≤ w))) := by
  intro menu ot qty
  constructor
  · unfold estimatedWaitMinutes
    cases h : prepTimes (selectedItems menu ot qty) with
    | nil =>
      simp only [true_iff]
      intro item hitem hex
      obtain ⟨m, hm, hpos⟩ := hex
      have : m ∈ prepTimes (selectedItems menu ot qty) :=
        (mem_prepTimes_iff _ _).mpr ⟨item, hitem, hm, hpos⟩
      rw [h] at this
      simp at this
    | cons t ts =>
      simp only [reduceCtorEq, false_iff, not_forall]
      have : t ∈ prepTimes (selectedItems menu ot qty) := by
        rw [h]
        exact List.mem_cons_self _ _
      obtain ⟨item, hitem, hm, hpos⟩ := (mem_prepTimes_iff _ _).mp this
      exact ⟨item, hitem, fun hno => hno ⟨t, hm, hpos⟩⟩
  · intro w
    unfold estimatedWaitMinutes
    cases h : prepTimes (selectedItems menu ot qty) with
    | nil =>
      simp only [reduceCtorEq, false_iff, not_and]
      rintro ⟨item, hitem, hm, hpos⟩
      have : w ∈ prepTimes (selectedItems menu ot qty) :=
        (mem_prepTimes_iff _ _).mpr ⟨item, hitem, hm, hpos⟩
      rw [h] at this
      simp at this
    | cons t ts =>
      constructor
      · intro hw
        have hweq : w = jsMathMax t ts := by
          injection hw with hw1
          exact hw1.symm
        subst hweq
        constructor
        · have hmem : jsMathMax t ts ∈ prepTimes (selectedItems menu ot qty) := by
            rw [h]
            exact jsMathMax_mem t ts
          exact (mem_prepTimes_iff _ _).mp hmem
        · intro item hitem m hm hpos
          have : m ∈ prepTimes (selectedItems menu ot qty) :=
            (mem_prepTimes_iff _ _).mpr ⟨item, hitem, hm, hpos⟩
          rw [h] at this
          exact jsMathMax_ge t ts m this
      · rintro ⟨⟨item, hitem, hm, hpos⟩, hub⟩
        have hwmem : w ∈ prepTimes (selectedItems menu ot qty) :=
          (mem_prepTimes_iff _ _).mpr ⟨item, hitem, hm, hpos⟩
        rw [h] at hwmem
        have h1 : w ≤ jsMathMax t ts := jsMathMax_ge t ts w hwmem
        have h2 : jsMathMax t ts ≤ w := by
          have hmem : jsMathMax t ts ∈ prepTimes (selectedItems menu ot qty) := by
            rw [h]
            exact jsMathMax_mem t ts
          obtain ⟨item2, hi2, hm2, hp2⟩ := (mem_prepTimes_iff _ _).mp hmem
          exact hub item2 hi2 _ hm2 hp2
        exact congrArg some (le_antisymm h2 h1)

/-! ## C8: menu availability filtering by order type -/

/-- C8: `filteredMenuItems` keeps exactly the items that are not excluded
by the order type: pickup-only items are dropped for dine-in, dine-in-only
items are dropped for pickup, and an item with both flags false (or unset)
is kept for both order types. -/
theorem filteredMenuItems_spec :
    (∀ (menu : List MenuItem) (ot : OrderType) (item : MenuItem),
      item ∈ filteredMenuItems menu ot ↔
        item ∈ menu ∧ ¬((ot = .dine_in ∧ item.pickup_only = some true) ∨
          (ot = .pickup ∧ item.dine_in_only = some true))) ∧
    (∀ (menu : List MenuItem) (item : MenuItem),
      item ∈ menu → item.dine_in_only.getD false = false →
      item.pickup_only.getD false = false →
      item ∈ filteredMenuItems menu OrderType.dine_in ∧
        item ∈ filteredMenuItems menu OrderType.pickup) := by
  constructor
  · intro menu ot item
    cases ot <;>
      simp [filteredMenuItems, List.mem_filter, not_getD_false_iff, getD_false_eq_false_iff]
  · intro menu item hmem h1 h2
    constructor <;>
      simp [filteredMenuItems, List.mem_filter, hmem, h1, h2]

/-! ## C9: order-ready notification is best-effort and email-conditional -/

/-- C9: when the database status update succeeds (`dbUpdateError = false`)
and an admin sets the status to "ready", the recorded status is "ready"
and a notification email is attempted iff the order's customer email is
non-blank; the outcome of the email send (the `resendSend` environment)
has no effect on the recorded status. -/
theorem setStatus_ready_spec :
    ∀ (apiKey : Bool) (send send2 : String → String → EmailResult)
      (locName : String) (order : OrderRow),
      (setStatus false apiKey send locName order "ready").statusAfter = "ready" ∧
      ((setStatus false apiKey send locName order "ready").emailAttempted = true ↔
        trimmedEmail order ≠ "") ∧
      (setStatus false apiKey send locName order "ready").statusAfter =
        (setStatus false apiKey send2 locName order "ready").statusAfter := by
  intro apiKey send send2 locName order
  by_cases h : trimmedEmail order = "" <;>
    simp [setStatus, h]

end FishFry
